import Mathlib

set_option maxHeartbeats 1000000

/-
Verification development for the AgenticMarketSim repository
(src/LimitOrderBookVeryVolatile.cpp, src/LimitOrderBookMostVolatile.cpp,
src/EngineInterface.hpp).

The matching engine, the command interface and the agent computations the
claims refer to are shallowly embedded below.  Machine doubles are modelled
as rationals: the book only compares, copies and averages prices (no
rounding-sensitive arithmetic is involved in the claims), playback of the
C++ comparisons over the stored values is exact.  The `std::priority_queue`
is modelled as a list kept sorted by pop-priority (head = `top()`), and the
`std::unordered_map` of active orders as an association list.  Random draws
made by agents are passed in as explicit oracle arguments.
-/

namespace AMS

/-- Trading side, from `enum class Side { BUY, SELL }` (both engine files). -/
inductive Side
  | BUY
  | SELL
deriving DecidableEq

/-- Opposite side; used to attribute the resting party of a fill. -/
def contra : Side → Side
  | Side.BUY => Side.SELL
  | Side.SELL => Side.BUY

/-- `struct Order { uint64_t id; double timestamp; double price; uint32_t quantity; Side side; }`.
The uint32 quantity is a natural: the matching loop only subtracts minima, which
cannot overflow or go negative. -/
structure Order where
  id : ℕ
  timestamp : ℚ
  price : ℚ
  quantity : ℕ
  side : Side
deriving DecidableEq

/-- `struct Trade { double price; uint32_t quantity; double timestamp; }`. -/
structure Trade where
  price : ℚ
  quantity : ℕ
  timestamp : ℚ
deriving DecidableEq

/-- Lookup in an association list, modelling `std::unordered_map` access by key. -/
def lookupA {α : Type} : List (ℕ × α) → ℕ → Option α
  | [], _ => none
  | (k, v) :: t, i => if k = i then some v else lookupA t i

/-- `map[k] = v`: replace the record at key `k`, or add one if the key is absent. -/
def insertA {α : Type} : List (ℕ × α) → ℕ → α → List (ℕ × α)
  | [], i, v => [(i, v)]
  | (k, w) :: t, i, v => if k = i then (i, v) :: t else (k, w) :: insertA t i v

/-- `map.erase(k)`. -/
def eraseA {α : Type} : List (ℕ × α) → ℕ → List (ℕ × α)
  | [], _ => []
  | (k, w) :: t, i => if k = i then eraseA t i else (k, w) :: eraseA t i

/-- Pop-priority of the ask heap.  The comparator `askComp` (line 21 of both
engine files) makes the `std::priority_queue` pop the entry with the lowest
price, earliest timestamp first; `askLE a b` says `a` pops no later than `b`. -/
def askLE (a b : Order) : Prop :=
  a.price < b.price ∨ (a.price = b.price ∧ a.timestamp ≤ b.timestamp)

/-- Pop-priority of the bid heap (`bidComp`): highest price first, earlier
timestamp wins ties. -/
def bidLE (a b : Order) : Prop :=
  b.price < a.price ∨ (a.price = b.price ∧ a.timestamp ≤ b.timestamp)

instance : DecidableRel askLE := fun a b => by unfold askLE; infer_instance

instance : DecidableRel bidLE := fun a b => by unfold bidLE; infer_instance

/-- `heap.push(x)`: the heap is modelled as a list sorted by pop-priority
(head = `top()`), so a push is an ordered insertion. -/
def hpush (le : Order → Order → Prop) [DecidableRel le] (x : Order) : List Order → List Order
  | [] => [x]
  | y :: ys => if le x y then x :: y :: ys else y :: hpush le x ys

/-- For a SELL walking the bid heap, matching stops when `best.price < order.price`. -/
def sellBreak (bestPrice oPrice : ℚ) : Prop := bestPrice < oPrice

/-- For a BUY walking the ask heap, matching stops when `best.price > order.price`. -/
def buyBreak (bestPrice oPrice : ℚ) : Prop := oPrice < bestPrice

instance : DecidableRel sellBreak := fun a b => by unfold sellBreak; infer_instance

instance : DecidableRel buyBreak := fun a b => by unfold buyBreak; infer_instance

/-- The matching loop of `LimitOrderBook::add_order` (one side; the two C++
branches instantiate `breakQ`/`le`).  Walks the contra heap: pops stale heads
(id absent from the active map), stops on the break condition, executes
`min(best.quantity, order.quantity)` otherwise; a partially filled resting
order is popped, rewritten in the active map and re-pushed with the reduced
quantity (at which point the incoming order is exhausted, so the loop ends);
a fully consumed resting order is erased and popped.  Returns the trades, the
updated active map, the updated contra heap and the incoming order with its
remaining quantity. -/
def matchLoop (breakQ : ℚ → ℚ → Prop) [DecidableRel breakQ]
    (le : Order → Order → Prop) [DecidableRel le] :
    List (ℕ × Order) → List Order → Order →
      List Trade × List (ℕ × Order) × List Order × Order
  | active, [], o => ([], active, [], o)
  | active, best :: rest, o =>
    if o.quantity = 0 then ([], active, best :: rest, o)
    else if (lookupA active best.id).isNone then matchLoop breakQ le active rest o
    else if breakQ best.price o.price then ([], active, best :: rest, o)
    else if min best.quantity o.quantity < best.quantity then
      ([⟨best.price, min best.quantity o.quantity, o.timestamp⟩],
       insertA active best.id { best with quantity := best.quantity - min best.quantity o.quantity },
       hpush le { best with quantity := best.quantity - min best.quantity o.quantity } rest,
       { o with quantity := o.quantity - min best.quantity o.quantity })
    else
      ⟨⟨best.price, min best.quantity o.quantity, o.timestamp⟩ ::
         (matchLoop breakQ le (eraseA active best.id) rest
           { o with quantity := o.quantity - min best.quantity o.quantity }).1,
       (matchLoop breakQ le (eraseA active best.id) rest
         { o with quantity := o.quantity - min best.quantity o.quantity }).2⟩

/-- `LimitOrderBook` state: the active-order map and the two lazy heaps.
(The MostVolatile variant additionally stores `last_traded_price`; that field
lives outside the matching logic and is kept in the surrounding loop state here.) -/
structure Book where
  active : List (ℕ × Order)
  askHeap : List Order
  bidHeap : List Order
deriving DecidableEq

/-- A freshly constructed book. -/
def emptyBook : Book := ⟨[], [], []⟩

/-- `LimitOrderBook::add_order` (lines 53-75 of the VeryVolatile file, 38-68 of
the MostVolatile file): a SELL crosses the bid heap and any residual rests on
the ask side; a BUY crosses the ask heap and any residual rests on the bid side. -/
def add_order (b : Book) (o : Order) : List Trade × Book :=
  match o.side with
  | Side.SELL =>
    match matchLoop sellBreak bidLE b.active b.bidHeap o with
    | (trades, a, newBid, o2) =>
      if 0 < o2.quantity then
        (trades, ⟨insertA a o2.id o2, hpush askLE o2 b.askHeap, newBid⟩)
      else
        (trades, ⟨a, b.askHeap, newBid⟩)
  | Side.BUY =>
    match matchLoop buyBreak askLE b.active b.askHeap o with
    | (trades, a, newAsk, o2) =>
      if 0 < o2.quantity then
        (trades, ⟨insertA a o2.id o2, newAsk, hpush bidLE o2 b.bidHeap⟩)
      else
        (trades, ⟨a, newAsk, b.bidHeap⟩)

/-- `LimitOrderBook::get_mid` (line 27 of the VeryVolatile file).  Note: it reads
the raw heap tops; it does not call `clean_heaps` first. -/
def get_mid (b : Book) (fallback : ℚ) : ℚ :=
  match b.askHeap, b.bidHeap with
  | ask :: _, bid :: _ => 1/2 * (ask.price + bid.price)
  | _, _ => fallback

/-- One side of `LimitOrderBook::clean_heaps`: pop heap heads whose id is not in
the active map. -/
def cleanHeap (active : List (ℕ × Order)) : List Order → List Order
  | [] => []
  | e :: t => if (lookupA active e.id).isNone then cleanHeap active t else e :: t

/-- `LimitOrderBook::clean_heaps` (lines 29-32). -/
def clean_heaps (b : Book) : Book :=
  { b with askHeap := cleanHeap b.active b.askHeap,
           bidHeap := cleanHeap b.active b.bidHeap }

/-- `LimitOrderBook::get_metrics` (lines 34-43): cleans stale heads, then reads
spread and top-of-book liquidity; both zero when either side is empty.  Returns
the mutated book alongside the metrics. -/
def get_metrics (b : Book) : (ℚ × ℕ) × Book :=
  match (clean_heaps b).askHeap, (clean_heaps b).bidHeap with
  | ask :: _, bid :: _ => ((ask.price - bid.price, ask.quantity + bid.quantity), clean_heaps b)
  | _, _ => ((0, 0), clean_heaps b)

/-- `LimitOrderBook::decay` (lines 45-51): erases a randomly chosen set of ids
from the active map (heap entries become stale).  The per-order coin flips are
abstracted into the chosen id list `ids`. -/
def decay (b : Book) (ids : List ℕ) : Book :=
  { b with active := ids.foldl eraseA b.active }

/-- The spec's mid computation for comparison with the code ("after cleaning
stale heads"); the engine's `get_mid` above does not clean. -/
def get_mid_spec (b : Book) (fallback : ℚ) : ℚ := get_mid (clean_heaps b) fallback

/-- The heap on which an order of side `s` rests. -/
def sideHeap (b : Book) : Side → List Order
  | Side.SELL => b.askHeap
  | Side.BUY => b.bidHeap

/-- The id `i` is unused in the book: absent from the active map and from both
heaps.  The engines guarantee this for every submitted order via the monotone
`oid++` counter ("unique monotone id" in the data model). -/
def Fresh (b : Book) (i : ℕ) : Prop :=
  lookupA b.active i = none ∧
    i ∉ b.askHeap.map Order.id ∧ i ∉ b.bidHeap.map Order.id

instance (b : Book) (i : ℕ) : Decidable (Fresh b i) := by unfold Fresh; infer_instance

/-- Book states reachable by the operations the engine performs, with fresh ids
on submission. -/
inductive Reach : Book → Prop
  | empty : Reach emptyBook
  | add (b : Book) (o : Order) : Reach b → Fresh b o.id → Reach (add_order b o).2
  | decayed (b : Book) (ids : List ℕ) : Reach b → Reach (decay b ids)
  | cleaned (b : Book) : Reach b → Reach (clean_heaps b)
  | metrics (b : Book) : Reach b → Reach (get_metrics b).2

/-- Fold a list of submissions through `add_order`, keeping the book. -/
def addOrders (b : Book) (os : List Order) : Book :=
  os.foldl (fun x o => (add_order x o).2) b

/-- Each order in the list has a fresh id at its turn. -/
inductive FreshSeq : Book → List Order → Prop
  | nil (b : Book) : FreshSeq b []
  | cons (b : Book) (o : Order) (os : List Order) :
      Fresh b o.id → FreshSeq (add_order b o).2 os → FreshSeq b (o :: os)

/-- The full structural invariant of the lazy-cancellation book. -/
structure Inv (b : Book) : Prop where
  keys_ok : ∀ p ∈ b.active, p.2.id = p.1
  keys_nd : (b.active.map Prod.fst).Nodup
  ask_nd : (b.askHeap.map Order.id).Nodup
  bid_nd : (b.bidHeap.map Order.id).Nodup
  disj : ∀ i ∈ b.askHeap.map Order.id, i ∉ b.bidHeap.map Order.id
  ask_side : ∀ e ∈ b.askHeap, e.side = Side.SELL
  bid_side : ∀ e ∈ b.bidHeap, e.side = Side.BUY
  wit : ∀ p ∈ b.active, ∃ e ∈ sideHeap b p.2.side, e.id = p.1
  cons : ∀ e, e ∈ b.askHeap ∨ e ∈ b.bidHeap → ∀ w, lookupA b.active e.id = some w →
    e.quantity ≤ w.quantity ∧ e.price = w.price ∧ e.timestamp = w.timestamp ∧ e.side = w.side
  ask_sorted : b.askHeap.Pairwise askLE
  bid_sorted : b.bidHeap.Pairwise bidLE

/-- The one-sided view of `Inv` threaded through `matchLoop`: `h` is the contra
heap being walked (entries of side `sC`), `g` is the untouched own-side heap. -/
structure SideInv (sC : Side) (le : Order → Order → Prop)
    (active : List (ℕ × Order)) (h g : List Order) : Prop where
  keys_ok : ∀ p ∈ active, p.2.id = p.1
  keys_nd : (active.map Prod.fst).Nodup
  h_nd : (h.map Order.id).Nodup
  h_disj : ∀ i ∈ h.map Order.id, i ∉ g.map Order.id
  h_side : ∀ e ∈ h, e.side = sC
  wit : ∀ p ∈ active, ∃ e ∈ (if p.2.side = sC then h else g), e.id = p.1
  cons : ∀ e, e ∈ h ∨ e ∈ g → ∀ w, lookupA active e.id = some w →
    e.quantity ≤ w.quantity ∧ e.price = w.price ∧ e.timestamp = w.timestamp ∧ e.side = w.side
  sorted : h.Pairwise le

/-- The light invariant needed for the uncrossed-book claim: both heaps sorted,
every bid entry strictly below every ask entry. -/
structure Inv3 (b : Book) : Prop where
  ask_sorted : b.askHeap.Pairwise askLE
  bid_sorted : b.bidHeap.Pairwise bidLE
  cross : ∀ x ∈ b.bidHeap, ∀ y ∈ b.askHeap, x.price < y.price

/-- Price-time-priority tracking state: the order with id `ai` is live and its
heap entry sits strictly before the entry of id `bi` on the `s` heap, and the
record of `bi` is the untouched `B`. -/
def PTlive (s : Side) (ai bi : ℕ) (B : Order) (b : Book) : Prop :=
  (lookupA b.active ai).isSome ∧ lookupA b.active bi = some B ∧
    ∃ eB l₁ l₂, sideHeap b s = l₁ ++ eB :: l₂ ∧ eB.id = bi ∧ ai ∈ l₁.map Order.id

/-- Demonstration book used by witnesses: one resting SELL. -/
def demoBook : Book := (add_order emptyBook ⟨1, 0, 100, 5, Side.SELL⟩).2

/-- Demonstration book with a live bid and a stale ask-heap entry (id 2 decayed). -/
def cexBook : Book :=
  decay (add_order (add_order emptyBook ⟨1, 0, 90, 5, Side.BUY⟩).2
    ⟨2, 1, 100, 5, Side.SELL⟩).2 [2]

/- ===== Engine-controller interface (EngineInterface.hpp) ===== -/

/-- `struct UserOrder { bool is_buy; int quantity; double price; }`. -/
structure UserOrder where
  is_buy : Bool
  quantity : ℤ
  price : ℚ
deriving DecidableEq

/-- `enum class MarketScenario { NORMAL = 0, PUMP_DUMP = 1, SHORT_SQUEEZE = 2 }`. -/
inductive MarketScenario
  | NORMAL
  | PUMP_DUMP
  | SHORT_SQUEEZE
deriving DecidableEq

/-- A parsed inbound command (first token of the text frame). -/
inductive Cmd
  | stop
  | pause
  | resume
  | scenario (n : ℤ)
  | order (side : ℤ) (qty : ℤ) (price : ℚ)
  | unknown
deriving DecidableEq

/-- `EngineInterface::checkCommands` (hpp lines 62-87) over one poll's message
stream.  Drains messages: STOP returns `-2` immediately; PAUSE/RESUME toggle the
paused flag; the last SCENARIO value becomes the return status (initially `-1`);
ORDER messages are appended, unparsed kinds are dropped.  When the stream is
exhausted the call returns the status, unless paused, in which case the C++
keeps sleeping and polling; that blocked situation is modelled as `none`. -/
def checkCommands : List Cmd → Bool → ℤ → List UserOrder →
    Option (ℤ × Bool × List UserOrder)
  | [], paused, sig, acc => if paused then none else some (sig, paused, acc)
  | c :: rest, paused, sig, acc =>
    match c with
    | Cmd.stop => some (-2, paused, acc)
    | Cmd.pause => checkCommands rest true sig acc
    | Cmd.resume => checkCommands rest false sig acc
    | Cmd.scenario n => checkCommands rest paused n acc
    | Cmd.order sd q p => checkCommands rest paused sig (acc ++ [⟨decide (sd = 0), q, p⟩])
    | Cmd.unknown => checkCommands rest paused sig acc

/-- The rich (VeryVolatile) main loop's exit test, line 278: `if (status == -2) break;`. -/
def richBreaks (status : ℤ) : Bool := status == -2

/-- The lite (MostVolatile) main loop's exit test, line 158:
`if (!engine.checkCommands(user_orders)) break;` — the `int` return is
converted to `bool`, so the loop breaks precisely when the status is `0`. -/
def liteBreaks (status : ℤ) : Bool := status == 0

/-- Construction of the book order from a user order in both mains
(`Order o = {oid++, time, u.price, (uint32_t)u.quantity, ...}`): the price is
passed through unchanged and the `int` quantity is converted to `uint32_t`,
i.e. reduced modulo `2^32`. -/
def userToOrder (oid : ℕ) (time : ℚ) (u : UserOrder) : Order :=
  ⟨oid, time, u.price, (u.quantity % 2 ^ 32).toNat,
    if u.is_buy then Side.BUY else Side.SELL⟩

/- ===== Short-interest accounting (VeryVolatile main, lines 309-332) ===== -/

/-- The class of the party submitting an order in the tick loop. -/
inductive AgentClass
  | maker
  | fundamental
  | noise
  | momentum
  | user
deriving DecidableEq

/-- The signed contribution of one fill of an aggressor of side `s` to short
interest: `+qty` for a SELL, `-qty` for a BUY (main lines 325-326). -/
def tradeSign (s : Side) (t : Trade) : ℤ :=
  if s = Side.SELL then (t.quantity : ℤ) else -(t.quantity : ℤ)

/-- The tick loop's submission processing collapsed to order granularity: each
submission is matched, and `short_interest` is bumped by the signed fill volume
only when the submitting class is `fundamental` (main lines 319-329; the
`process` lambda used for the other classes never touches it). -/
def runSubs : Book → ℤ → List (AgentClass × Order) → Book × ℤ
  | b, si, [] => (b, si)
  | b, si, (c, o) :: rest =>
    runSubs (add_order b o).2
      (if c = AgentClass.fundamental
        then si + ((add_order b o).1.map (tradeSign o.side)).sum else si)
      rest

/-- `matchLoop` instrumented to tag each trade with the id of the resting order
it consumed; used only to state fill-attribution properties. -/
def matchLoopX (breakQ : ℚ → ℚ → Prop) [DecidableRel breakQ]
    (le : Order → Order → Prop) [DecidableRel le] :
    List (ℕ × Order) → List Order → Order →
      List (ℕ × Trade) × List (ℕ × Order) × List Order × Order
  | active, [], o => ([], active, [], o)
  | active, best :: rest, o =>
    if o.quantity = 0 then ([], active, best :: rest, o)
    else if (lookupA active best.id).isNone then matchLoopX breakQ le active rest o
    else if breakQ best.price o.price then ([], active, best :: rest, o)
    else if min best.quantity o.quantity < best.quantity then
      ([(best.id, ⟨best.price, min best.quantity o.quantity, o.timestamp⟩)],
       insertA active best.id { best with quantity := best.quantity - min best.quantity o.quantity },
       hpush le { best with quantity := best.quantity - min best.quantity o.quantity } rest,
       { o with quantity := o.quantity - min best.quantity o.quantity })
    else
      ⟨(best.id, ⟨best.price, min best.quantity o.quantity, o.timestamp⟩) ::
         (matchLoopX breakQ le (eraseA active best.id) rest
           { o with quantity := o.quantity - min best.quantity o.quantity }).1,
       (matchLoopX breakQ le (eraseA active best.id) rest
         { o with quantity := o.quantity - min best.quantity o.quantity }).2⟩

/-- `add_order` with resting-id-tagged trades (erases to `add_order`). -/
def add_orderX (b : Book) (o : Order) : List (ℕ × Trade) × Book :=
  match o.side with
  | Side.SELL =>
    match matchLoopX sellBreak bidLE b.active b.bidHeap o with
    | (trades, a, newBid, o2) =>
      if 0 < o2.quantity then
        (trades, ⟨insertA a o2.id o2, hpush askLE o2 b.askHeap, newBid⟩)
      else
        (trades, ⟨a, b.askHeap, newBid⟩)
  | Side.BUY =>
    match matchLoopX buyBreak askLE b.active b.askHeap o with
    | (trades, a, newAsk, o2) =>
      if 0 < o2.quantity then
        (trades, ⟨insertA a o2.id o2, newAsk, hpush bidLE o2 b.bidHeap⟩)
      else
        (trades, ⟨a, newAsk, b.bidHeap⟩)

/-- One submission's contribution to short interest as claim C8 reads it: every
fill in which a fundamental was a party counts, on the aggressor side via the
submitting class and on the resting side via the ownership map `own`
(submitter class per order id); the resting party's side is the contra side. -/
def specSIstep (own : List (ℕ × AgentClass)) (c : AgentClass) (o : Order)
    (tt : List (ℕ × Trade)) : ℤ :=
  (tt.map fun rt =>
    (if c = AgentClass.fundamental then tradeSign o.side rt.2 else 0) +
    (if lookupA own rt.1 = some AgentClass.fundamental
      then tradeSign (contra o.side) rt.2 else 0)).sum

/-- Short interest as claim C8 states it: summed over every fill with a
fundamental party, aggressor or resting. -/
def specSI : Book → List (ℕ × AgentClass) → List (AgentClass × Order) → ℤ
  | _, _, [] => 0
  | b, own, (c, o) :: rest =>
    specSIstep own c o (add_orderX b o).1 +
      specSI (add_orderX b o).2 ((o.id, c) :: own) rest

/-- Short interest counting only fills of fundamental-submitted (aggressor)
orders — what the code actually accumulates. -/
def specSIAggr : Book → List (AgentClass × Order) → ℤ
  | _, [] => 0
  | b, (c, o) :: rest =>
    (if c = AgentClass.fundamental
      then ((add_order b o).1.map (tradeSign o.side)).sum else 0) +
      specSIAggr (add_order b o).2 rest

/-- Submission trace refuting claim C8: a fundamental SELL rests, then a maker
BUY consumes it. -/
def cexSubs : List (AgentClass × Order) :=
  [(AgentClass.fundamental, ⟨1, 0, 100, 5, Side.SELL⟩),
   (AgentClass.maker, ⟨2, 1, 100, 5, Side.BUY⟩)]

/- ===== Agents (pump-and-dump machinery and momentum EWMAs) ===== -/

/-- `Agent::update_peak` (VeryVolatile line 87). -/
def update_peak (peak p : ℚ) : ℚ := if p > peak then p else peak

/-- `Agent::set_scenario` (VeryVolatile lines 88-91): stores the scenario and
resets the shared peak price to 0 on any switch away from Pump-and-Dump.
Returns the new scenario tag and the new shared peak. -/
def set_scenario (cur : MarketScenario) (peak : ℚ) (s : MarketScenario) :
    MarketScenario × ℚ :=
  (s, if s ≠ MarketScenario.PUMP_DUMP then 0 else peak)

/-- The guarded drawdown of `NoiseTrader::act` (VeryVolatile line 189):
`(peak_price > 0) ? (peak_price - mid) / peak_price : 0.0`. -/
def noiseDrawdown (peak mid : ℚ) : ℚ :=
  if peak > 0 then (peak - mid) / peak else 0

/-- The guarded drawdown of the tick loop's hype metric (VeryVolatile line 343). -/
def hypeDrawdown (peak price : ℚ) : ℚ :=
  if peak > 0 then (peak - price) / peak else 0

/-- `hype_val` (VeryVolatile line 345). -/
def hype_val (scen : MarketScenario) (peak price : ℚ) : ℚ :=
  if scen = MarketScenario.PUMP_DUMP
    then max 0 ((9/10 - hypeDrawdown peak price * 8) * 100) else 0

/-- `(uint32_t)` cast of a nonnegative double draw: truncate, reduce mod `2^32`. -/
def toU32 (x : ℚ) : ℕ := x.floor.toNat % 2 ^ 32

/-- Oracle for the random draws a `NoiseTrader::act` call may make. -/
structure NoiseDraws where
  wake : ℚ
  size : ℚ
  u1 : ℚ
  u2 : ℚ
  impact : ℚ

namespace VV

/-- Mutable state of the VeryVolatile `NoiseTrader` (the shared peak is threaded
explicitly, see the spec's shared-peak note). -/
structure NoiseTrader where
  next_act_time : ℚ
  scenario : MarketScenario
deriving DecidableEq

/-- `NoiseTrader::act` (VeryVolatile lines 177-227), with the random draws
passed as oracles.  Returns the new state, new shared peak, the emitted order
and the id counter. -/
def NoiseTrader.act (a : NoiseTrader) (peak mid vol time : ℚ) (oid : ℕ)
    (d : NoiseDraws) : NoiseTrader × ℚ × Option Order × ℕ :=
  let peak1 := update_peak peak mid
  if time < a.next_act_time then (a, peak1, none, oid)
  else
    let a1 : NoiseTrader := { a with next_act_time := time + d.wake }
    if a1.scenario = MarketScenario.PUMP_DUMP then
      let drawdown := noiseDrawdown peak1 mid
      let buy_prob := 9/10 - drawdown * 8
      if buy_prob < 1/20 then
        (a1, peak1,
         some ⟨oid, time, mid * (85/100),
               min 2000 (max 100 (toU32 d.size * 8 % 2 ^ 32)), Side.SELL⟩,
         oid + 1)
      else
        let s := if d.u1 < buy_prob then Side.BUY else Side.SELL
        let mult : ℚ := if d.u2 < 1/5 then 3 else 3/2
        let qty := min 500 (max 1 (toU32 (d.size * mult)))
        if s = Side.BUY then
          (a1, peak1, some ⟨oid, time, mid * (105/100), qty, s⟩, oid + 1)
        else
          (a1, peak1, some ⟨oid, time, mid * (95/100), qty, s⟩, oid + 1)
    else
      let s := if a1.scenario = MarketScenario.SHORT_SQUEEZE then
          (if d.u1 > 13/20 then Side.BUY else Side.SELL)
        else (if d.u1 > 1/2 then Side.BUY else Side.SELL)
      let impact := |d.impact| * (1/20 + 1/2 * vol) * mid
      let p0 := if s = Side.BUY then mid + impact else mid - impact
      let p1 := if p0 < 1/100 then 1/100 else p0
      (a1, peak1, some ⟨oid, time, p1, min 200 (max 1 (toU32 d.size)), s⟩, oid + 1)

/-- Mutable state of the VeryVolatile `MomentumTrader`. -/
structure MomentumTrader where
  ema_s : ℚ
  ema_l : ℚ
  next_act_time : ℚ
  reaction_speed : ℚ
  scenario : MarketScenario
deriving DecidableEq

/-- The VeryVolatile `MomentumTrader` constructor: both EWMAs seeded with `p`,
`next_act_time = 20`, `reaction_speed = 3`. -/
def MomentumTrader.start (p : ℚ) : MomentumTrader :=
  ⟨p, p, 20, 3, MarketScenario.NORMAL⟩

/-- `MomentumTrader::act` (VeryVolatile lines 235-246).  `draw mean` stands for
the exponential wake draw with the given mean. -/
def MomentumTrader.act (a : MomentumTrader) (mid vol time : ℚ) (oid : ℕ)
    (draw : ℚ → ℚ) : MomentumTrader × Option Order × ℕ :=
  let a1 : MomentumTrader :=
    { a with ema_s := 1/20 * mid + 19/20 * a.ema_s,
             ema_l := 1/100 * mid + 99/100 * a.ema_l }
  if time < a1.next_act_time then (a1, none, oid)
  else
    let speed := if a1.scenario = MarketScenario.NORMAL
      then a1.reaction_speed else a1.reaction_speed * 3
    let a2 : MomentumTrader := { a1 with next_act_time := time + draw speed }
    let signal := a2.ema_s - a2.ema_l
    let offset := 1/20 * vol * mid
    if offset < signal then (a2, some ⟨oid, time, mid + offset, 50, Side.BUY⟩, oid + 1)
    else if signal < -offset then (a2, some ⟨oid, time, mid - offset, 50, Side.SELL⟩, oid + 1)
    else (a2, none, oid)

end VV

namespace MV

/-- Mutable state of the MostVolatile `MomentumTrader` (no scenario tag). -/
structure MomentumTrader where
  ema_s : ℚ
  ema_l : ℚ
  next_act_time : ℚ
  reaction_speed : ℚ
deriving DecidableEq

/-- The MostVolatile `MomentumTrader` constructor (`next_act_time = 10`). -/
def MomentumTrader.start (p : ℚ) : MomentumTrader := ⟨p, p, 10, 3⟩

/-- `MomentumTrader::act` (MostVolatile lines 130-138); threshold offset is
`0.0002 * ref_price`. -/
def MomentumTrader.act (a : MomentumTrader) (ref_price time : ℚ) (oid : ℕ)
    (draw : ℚ → ℚ) : MomentumTrader × Option Order × ℕ :=
  let a1 : MomentumTrader :=
    { a with ema_s := 1/20 * ref_price + 19/20 * a.ema_s,
             ema_l := 1/100 * ref_price + 99/100 * a.ema_l }
  if time < a1.next_act_time then (a1, none, oid)
  else
    let a2 : MomentumTrader := { a1 with next_act_time := time + draw a1.reaction_speed }
    let signal := a2.ema_s - a2.ema_l
    let offset := 2/10000 * ref_price
    if offset < signal then (a2, some ⟨oid, time, ref_price + offset, 50, Side.BUY⟩, oid + 1)
    else if signal < -offset then (a2, some ⟨oid, time, ref_price - offset, 50, Side.SELL⟩, oid + 1)
    else (a2, none, oid)

end MV

/- ===== Unfolding equations ===== -/

theorem lookupA_nil {α : Type} (i : ℕ) : lookupA ([] : List (ℕ × α)) i = none := rfl

theorem lookupA_cons {α : Type} (k : ℕ) (w : α) (t : List (ℕ × α)) (i : ℕ) :
    lookupA ((k, w) :: t) i = if k = i then some w else lookupA t i := rfl

theorem insertA_nil {α : Type} (i : ℕ) (v : α) : insertA [] i v = [(i, v)] := rfl

theorem insertA_cons {α : Type} (k : ℕ) (w : α) (t : List (ℕ × α)) (i : ℕ) (v : α) :
    insertA ((k, w) :: t) i v =
      if k = i then (i, v) :: t else (k, w) :: insertA t i v := rfl

theorem eraseA_nil {α : Type} (i : ℕ) : eraseA ([] : List (ℕ × α)) i = [] := rfl

theorem eraseA_cons {α : Type} (k : ℕ) (w : α) (t : List (ℕ × α)) (i : ℕ) :
    eraseA ((k, w) :: t) i = if k = i then eraseA t i else (k, w) :: eraseA t i := rfl

theorem hpush_nil (le : Order → Order → Prop) [DecidableRel le] (x : Order) :
    hpush le x [] = [x] := rfl

theorem hpush_cons (le : Order → Order → Prop) [DecidableRel le] (x y : Order)
    (ys : List Order) :
    hpush le x (y :: ys) = if le x y then x :: y :: ys else y :: hpush le x ys := rfl

theorem matchLoop_nil (breakQ : ℚ → ℚ → Prop) [DecidableRel breakQ]
    (le : Order → Order → Prop) [DecidableRel le]
    (active : List (ℕ × Order)) (o : Order) :
    matchLoop breakQ le active [] o = ([], active, [], o) := rfl

theorem matchLoop_cons (breakQ : ℚ → ℚ → Prop) [DecidableRel breakQ]
    (le : Order → Order → Prop) [DecidableRel le]
    (active : List (ℕ × Order)) (best : Order) (rest : List Order) (o : Order) :
    matchLoop breakQ le active (best :: rest) o =
      if o.quantity = 0 then ([], active, best :: rest, o)
      else if (lookupA active best.id).isNone then matchLoop breakQ le active rest o
      else if breakQ best.price o.price then ([], active, best :: rest, o)
      else if min best.quantity o.quantity < best.quantity then
        ([⟨best.price, min best.quantity o.quantity, o.timestamp⟩],
         insertA active best.id { best with quantity := best.quantity - min best.quantity o.quantity },
         hpush le { best with quantity := best.quantity - min best.quantity o.quantity } rest,
         { o with quantity := o.quantity - min best.quantity o.quantity })
      else
        ⟨⟨best.price, min best.quantity o.quantity, o.timestamp⟩ ::
           (matchLoop breakQ le (eraseA active best.id) rest
             { o with quantity := o.quantity - min best.quantity o.quantity }).1,
         (matchLoop breakQ le (eraseA active best.id) rest
           { o with quantity := o.quantity - min best.quantity o.quantity }).2⟩ := rfl

theorem cleanHeap_nil (active : List (ℕ × Order)) : cleanHeap active [] = [] := rfl

theorem cleanHeap_cons (active : List (ℕ × Order)) (e : Order) (t : List Order) :
    cleanHeap active (e :: t) =
      if (lookupA active e.id).isNone then cleanHeap active t else e :: t := rfl

/- ===== Association-list lemmas ===== -/

theorem lookupA_insertA_self {α : Type} (m : List (ℕ × α)) (i : ℕ) (v : α) :
    lookupA (insertA m i v) i = some v := by
  induction m with
  | nil => simp [insertA_nil, lookupA_cons]
  | cons p t ih =>
    obtain ⟨k, w⟩ := p
    by_cases hk : k = i
    · subst hk; simp [insertA_cons, lookupA_cons]
    · simp [insertA_cons, hk, lookupA_cons, ih]

theorem lookupA_insertA_ne {α : Type} (m : List (ℕ × α)) (i j : ℕ) (v : α)
    (h : j ≠ i) : lookupA (insertA m i v) j = lookupA m j := by
  have hij : i ≠ j := Ne.symm h
  induction m with
  | nil => simp [insertA_nil, lookupA_cons, lookupA_nil, hij]
  | cons p t ih =>
    obtain ⟨k, w⟩ := p
    by_cases hk : k = i
    · subst hk
      simp [insertA_cons, lookupA_cons, hij]
    · simp [insertA_cons, hk, lookupA_cons, ih]

theorem lookupA_eraseA_self {α : Type} (m : List (ℕ × α)) (i : ℕ) :
    lookupA (eraseA m i) i = none := by
  induction m with
  | nil => simp [eraseA_nil, lookupA_nil]
  | cons p t ih =>
    obtain ⟨k, w⟩ := p
    by_cases hk : k = i
    · subst hk; simp [eraseA_cons, ih]
    · simp [eraseA_cons, hk, lookupA_cons, ih]

theorem lookupA_eraseA_ne {α : Type} (m : List (ℕ × α)) (i j : ℕ)
    (h : j ≠ i) : lookupA (eraseA m i) j = lookupA m j := by
  have hij : i ≠ j := Ne.symm h
  induction m with
  | nil => simp [eraseA_nil]
  | cons p t ih =>
    obtain ⟨k, w⟩ := p
    by_cases hk : k = i
    · subst hk
      simp [eraseA_cons, lookupA_cons, hij, ih]
    · simp [eraseA_cons, hk, lookupA_cons, ih]

theorem mem_eraseA {α : Type} {m : List (ℕ × α)} {i : ℕ} {p : ℕ × α} :
    p ∈ eraseA m i ↔ p ∈ m ∧ p.1 ≠ i := by
  induction m with
  | nil => simp [eraseA_nil]
  | cons q t ih =>
    obtain ⟨k, w⟩ := q
    by_cases hk : k = i
    · subst hk
      rw [eraseA_cons, if_pos rfl, ih]
      constructor
      · rintro ⟨h1, h2⟩
        exact ⟨List.mem_cons_of_mem _ h1, h2⟩
      · rintro ⟨h1, h2⟩
        rcases List.mem_cons.1 h1 with rfl | h1
        · exact absurd rfl h2
        · exact ⟨h1, h2⟩
    · rw [eraseA_cons, if_neg hk]
      constructor
      · intro h1
        rcases List.mem_cons.1 h1 with rfl | h1
        · exact ⟨List.mem_cons_self _ _, hk⟩
        · obtain ⟨h2, h3⟩ := ih.1 h1
          exact ⟨List.mem_cons_of_mem _ h2, h3⟩
      · rintro ⟨h1, h2⟩
        rcases List.mem_cons.1 h1 with rfl | h1
        · exact List.mem_cons_self _ _
        · exact List.mem_cons_of_mem _ (ih.2 ⟨h1, h2⟩)

theorem lookupA_eq_none {α : Type} (m : List (ℕ × α)) (i : ℕ) :
    lookupA m i = none ↔ i ∉ m.map Prod.fst := by
  induction m with
  | nil => simp [lookupA_nil]
  | cons p t ih =>
    obtain ⟨k, w⟩ := p
    by_cases hk : k = i
    · subst hk; simp [lookupA_cons]
    · simp [lookupA_cons, hk, ih, Ne.symm hk]

theorem lookupA_isSome_iff {α : Type} (m : List (ℕ × α)) (i : ℕ) :
    (lookupA m i).isSome ↔ i ∈ m.map Prod.fst := by
  rcases hl : lookupA m i with _ | v
  · simpa using (lookupA_eq_none m i).1 hl
  · simp only [Option.isSome_some, true_iff]
    by_contra hmem
    rw [← lookupA_eq_none m i, hl] at hmem
    exact Option.noConfusion hmem

theorem lookupA_of_mem_nodup {α : Type} {m : List (ℕ × α)} {k : ℕ} {v : α}
    (hnd : (m.map Prod.fst).Nodup) (hm : (k, v) ∈ m) : lookupA m k = some v := by
  induction m with
  | nil => simp at hm
  | cons p t ih =>
    obtain ⟨k2, w⟩ := p
    simp only [List.map_cons, List.nodup_cons] at hnd
    rcases List.mem_cons.1 hm with heq | hmem
    · obtain ⟨rfl, rfl⟩ := Prod.mk.injEq k v k2 w ▸ heq
      simp [lookupA_cons]
    · by_cases hk : k2 = k
      · subst hk
        exact absurd (List.mem_map.2 ⟨(k2, v), hmem, rfl⟩) hnd.1
      · simpa [lookupA_cons, hk] using ih hnd.2 hmem

theorem lookupA_mem {α : Type} {m : List (ℕ × α)} {i : ℕ} {v : α}
    (h : lookupA m i = some v) : (i, v) ∈ m := by
  induction m with
  | nil => simp [lookupA_nil] at h
  | cons p t ih =>
    obtain ⟨k, w⟩ := p
    by_cases hk : k = i
    · subst hk
      rw [lookupA_cons, if_pos rfl] at h
      obtain rfl := Option.some.inj h
      exact List.mem_cons_self _ _
    · rw [lookupA_cons, if_neg hk] at h
      exact List.mem_cons_of_mem _ (ih h)

theorem keys_insertA {α : Type} (m : List (ℕ × α)) (i : ℕ) (v : α) :
    (insertA m i v).map Prod.fst =
      if i ∈ m.map Prod.fst then m.map Prod.fst else m.map Prod.fst ++ [i] := by
  induction m with
  | nil => simp [insertA_nil]
  | cons p t ih =>
    obtain ⟨k, w⟩ := p
    by_cases hk : k = i
    · subst hk; simp [insertA_cons]
    · rw [insertA_cons, if_neg hk]
      by_cases hm : i ∈ t.map Prod.fst
      · simp [ih, hm, Ne.symm hk]
      · simp [ih, hm, Ne.symm hk]

theorem keys_nodup_insertA {α : Type} {m : List (ℕ × α)} (i : ℕ) (v : α)
    (hnd : (m.map Prod.fst).Nodup) : ((insertA m i v).map Prod.fst).Nodup := by
  rw [keys_insertA]
  by_cases hm : i ∈ m.map Prod.fst
  · simpa [hm] using hnd
  · simp [hm, List.nodup_append, hnd]

theorem mem_insertA_elim {α : Type} {m : List (ℕ × α)} {i : ℕ} {v : α} {p : ℕ × α}
    (hnd : (m.map Prod.fst).Nodup) (hp : p ∈ insertA m i v) :
    p = (i, v) ∨ (p ∈ m ∧ p.1 ≠ i) := by
  induction m with
  | nil =>
    rw [insertA_nil] at hp
    exact Or.inl (List.mem_singleton.1 hp)
  | cons q t ih =>
    obtain ⟨k, w⟩ := q
    simp only [List.map_cons, List.nodup_cons] at hnd
    by_cases hk : k = i
    · subst hk
      rw [insertA_cons, if_pos rfl] at hp
      rcases List.mem_cons.1 hp with rfl | hp
      · exact Or.inl rfl
      · refine Or.inr ⟨List.mem_cons_of_mem _ hp, fun hpi => ?_⟩
        exact hnd.1 (hpi ▸ List.mem_map.2 ⟨p, hp, rfl⟩)
    · rw [insertA_cons, if_neg hk] at hp
      rcases List.mem_cons.1 hp with rfl | hp
      · exact Or.inr ⟨List.mem_cons_self _ _, hk⟩
      · rcases ih hnd.2 hp with h1 | ⟨h1, h2⟩
        · exact Or.inl h1
        · exact Or.inr ⟨List.mem_cons_of_mem _ h1, h2⟩

theorem keys_eraseA_sublist {α : Type} (m : List (ℕ × α)) (i : ℕ) :
    List.Sublist ((eraseA m i).map Prod.fst) (m.map Prod.fst) := by
  induction m with
  | nil => simp [eraseA_nil]
  | cons p t ih =>
    obtain ⟨k, w⟩ := p
    by_cases hk : k = i
    · subst hk
      rw [eraseA_cons, if_pos rfl]
      exact ih.trans (List.sublist_cons_self _ _)
    · rw [eraseA_cons, if_neg hk, List.map_cons, List.map_cons]
      exact ih.cons₂ k

theorem lookupA_foldl_eraseA {α : Type} (ids : List ℕ) :
    ∀ (m : List (ℕ × α)) (i : ℕ) (w : α),
    lookupA (List.foldl eraseA m ids) i = some w → lookupA m i = some w := by
  induction ids with
  | nil => intro m i w h; simpa using h
  | cons j js ih =>
    intro m i w h
    by_cases hij : i = j
    · subst hij
      have h2 := ih (eraseA m i) i w (by simpa using h)
      rw [lookupA_eraseA_self] at h2
      exact Option.noConfusion h2
    · have h2 := ih (eraseA m j) i w (by simpa using h)
      rwa [lookupA_eraseA_ne _ _ _ hij] at h2

theorem mem_foldl_eraseA {α : Type} (ids : List ℕ) :
    ∀ (m : List (ℕ × α)) (p : ℕ × α), p ∈ List.foldl eraseA m ids → p ∈ m := by
  induction ids with
  | nil => intro m p h; simpa using h
  | cons j js ih =>
    intro m p h
    exact (mem_eraseA.1 (ih (eraseA m j) p (by simpa using h))).1

theorem keys_foldl_eraseA_sublist {α : Type} (ids : List ℕ) :
    ∀ (m : List (ℕ × α)),
      List.Sublist ((List.foldl eraseA m ids).map Prod.fst) (m.map Prod.fst) := by
  induction ids with
  | nil => intro m; simp
  | cons j js ih =>
    intro m
    have h2 : List.foldl eraseA m (j :: js) = List.foldl eraseA (eraseA m j) js := by
      simp
    rw [h2]
    exact (ih (eraseA m j)).trans (keys_eraseA_sublist m j)

/- ===== Heap lemmas ===== -/

theorem mem_hpush {le : Order → Order → Prop} [DecidableRel le] {x z : Order}
    {l : List Order} : z ∈ hpush le x l ↔ z = x ∨ z ∈ l := by
  induction l with
  | nil => simp [hpush_nil]
  | cons y ys ih =>
    by_cases hxy : le x y
    · simp [hpush_cons, hxy]
    · rw [hpush_cons, if_neg hxy]
      simp only [List.mem_cons, ih]
      tauto

theorem hpush_perm (le : Order → Order → Prop) [DecidableRel le] (x : Order)
    (l : List Order) : (hpush le x l).Perm (x :: l) := by
  induction l with
  | nil => simp [hpush_nil]
  | cons y ys ih =>
    by_cases hxy : le x y
    · rw [hpush_cons, if_pos hxy]
    · rw [hpush_cons, if_neg hxy]
      exact (ih.cons y).trans (List.Perm.swap x y ys)

theorem pairwise_hpush {le : Order → Order → Prop} [DecidableRel le]
    (htot : ∀ a b, ¬ le a b → le b a)
    (htrans : ∀ a b c, le a b → le b c → le a c)
    (x : Order) {l : List Order} (hl : l.Pairwise le) :
    (hpush le x l).Pairwise le := by
  induction l with
  | nil => simp [hpush_nil]
  | cons y ys ih =>
    rw [List.pairwise_cons] at hl
    by_cases hxy : le x y
    · rw [hpush_cons, if_pos hxy, List.pairwise_cons]
      refine ⟨?_, List.pairwise_cons.2 hl⟩
      intro b hb
      rcases List.mem_cons.1 hb with rfl | hb
      · exact hxy
      · exact htrans _ _ _ hxy (hl.1 b hb)
    · rw [hpush_cons, if_neg hxy, List.pairwise_cons]
      refine ⟨?_, ih hl.2⟩
      intro b hb
      rcases mem_hpush.1 hb with rfl | hb
      · exact htot _ _ hxy
      · exact hl.1 b hb

theorem hpush_eq_cons {le : Order → Order → Prop} [DecidableRel le] {x : Order}
    {l : List Order} (hx : ∀ y ∈ l, le x y) : hpush le x l = x :: l := by
  cases l with
  | nil => rfl
  | cons y ys => rw [hpush_cons, if_pos (hx y (List.mem_cons_self _ _))]

theorem askLE_total (a b : Order) (h : ¬ askLE a b) : askLE b a := by
  unfold askLE at *
  push_neg at h
  rcases lt_or_eq_of_le h.1 with hlt | heq
  · exact Or.inl hlt
  · exact Or.inr ⟨heq, le_of_lt (h.2 heq.symm)⟩

theorem askLE_trans (a b c : Order) (h1 : askLE a b) (h2 : askLE b c) : askLE a c := by
  unfold askLE at *
  rcases h1 with h1 | ⟨h1, h1t⟩ <;> rcases h2 with h2 | ⟨h2, h2t⟩
  · exact Or.inl (h1.trans h2)
  · exact Or.inl (h2 ▸ h1)
  · exact Or.inl (h1 ▸ h2)
  · exact Or.inr ⟨h1.trans h2, h1t.trans h2t⟩

theorem bidLE_total (a b : Order) (h : ¬ bidLE a b) : bidLE b a := by
  unfold bidLE at *
  push_neg at h
  rcases lt_or_eq_of_le h.1 with hlt | heq
  · exact Or.inl hlt
  · exact Or.inr ⟨heq.symm, le_of_lt (h.2 heq)⟩

theorem bidLE_trans (a b c : Order) (h1 : bidLE a b) (h2 : bidLE b c) : bidLE a c := by
  unfold bidLE at *
  rcases h1 with h1 | ⟨h1, h1t⟩ <;> rcases h2 with h2 | ⟨h2, h2t⟩
  · exact Or.inl (h2.trans h1)
  · exact Or.inl (h2 ▸ h1)
  · exact Or.inl (h1 ▸ h2)
  · exact Or.inr ⟨h1.trans h2, h1t.trans h2t⟩

theorem askLE_qty (x : Order) (q : ℕ) (y : Order) :
    askLE { x with quantity := q } y ↔ askLE x y := Iff.rfl

theorem bidLE_qty (x : Order) (q : ℕ) (y : Order) :
    bidLE { x with quantity := q } y ↔ bidLE x y := Iff.rfl

/- ===== matchLoop lemmas ===== -/

theorem matchLoop_ids_subset (breakQ : ℚ → ℚ → Prop) [DecidableRel breakQ]
    (le : Order → Order → Prop) [DecidableRel le] :
    ∀ (h : List Order) (active : List (ℕ × Order)) (o : Order) (i : ℕ),
      i ∈ ((matchLoop breakQ le active h o).2.2.1).map Order.id →
        i ∈ h.map Order.id := by
  intro h
  induction h with
  | nil =>
    intro active o i hi
    rw [matchLoop_nil] at hi
    simp at hi
  | cons best rest ih =>
    intro active o i hi
    rw [matchLoop_cons] at hi
    split_ifs at hi with h0 h1 h2 h3
    · exact hi
    · exact List.mem_cons_of_mem _ (ih active o i hi)
    · exact hi
    · have hp := ((hpush_perm le
        { best with quantity := best.quantity - min best.quantity o.quantity } rest).map
          Order.id).mem_iff.1 hi
      rcases List.mem_cons.1 hp with rfl | hp
      · exact List.mem_cons_self _ _
      · exact List.mem_cons_of_mem _ hp
    · exact List.mem_cons_of_mem _ (ih _ _ i hi)

theorem matchLoop_lookupA_off (breakQ : ℚ → ℚ → Prop) [DecidableRel breakQ]
    (le : Order → Order → Prop) [DecidableRel le] :
    ∀ (h : List Order) (active : List (ℕ × Order)) (o : Order) (i : ℕ),
      i ∉ h.map Order.id →
        lookupA (matchLoop breakQ le active h o).2.1 i = lookupA active i := by
  intro h
  induction h with
  | nil => intro active o i _; rw [matchLoop_nil]
  | cons best rest ih =>
    intro active o i hi
    have hib : i ≠ best.id := by
      intro hh
      exact hi (hh ▸ List.mem_cons_self _ _)
    have hir : i ∉ rest.map Order.id := fun hh => hi (List.mem_cons_of_mem _ hh)
    rw [matchLoop_cons]
    split_ifs with h0 h1 h2 h3
    · rfl
    · exact ih active o i hir
    · rfl
    · exact lookupA_insertA_ne _ _ _ _ hib
    · rw [ih _ _ i hir]
      exact lookupA_eraseA_ne _ _ _ hib

theorem matchLoop_order_fields (breakQ : ℚ → ℚ → Prop) [DecidableRel breakQ]
    (le : Order → Order → Prop) [DecidableRel le] :
    ∀ (h : List Order) (active : List (ℕ × Order)) (o : Order),
      (matchLoop breakQ le active h o).2.2.2.id = o.id ∧
      (matchLoop breakQ le active h o).2.2.2.price = o.price ∧
      (matchLoop breakQ le active h o).2.2.2.timestamp = o.timestamp ∧
      (matchLoop breakQ le active h o).2.2.2.side = o.side := by
  intro h
  induction h with
  | nil => intro active o; rw [matchLoop_nil]; exact ⟨rfl, rfl, rfl, rfl⟩
  | cons best rest ih =>
    intro active o
    rw [matchLoop_cons]
    split_ifs with h0 h1 h2 h3
    · exact ⟨rfl, rfl, rfl, rfl⟩
    · exact ih active o
    · exact ⟨rfl, rfl, rfl, rfl⟩
    · exact ⟨rfl, rfl, rfl, rfl⟩
    · exact ih _ _

theorem matchLoop_sorted (breakQ : ℚ → ℚ → Prop) [DecidableRel breakQ]
    (le : Order → Order → Prop) [DecidableRel le]
    (htot : ∀ a b, ¬ le a b → le b a)
    (htrans : ∀ a b c, le a b → le b c → le a c) :
    ∀ (h : List Order) (active : List (ℕ × Order)) (o : Order),
      h.Pairwise le → ((matchLoop breakQ le active h o).2.2.1).Pairwise le := by
  intro h
  induction h with
  | nil => intro active o _; rw [matchLoop_nil]; exact List.Pairwise.nil
  | cons best rest ih =>
    intro active o hs
    have hrest := (List.pairwise_cons.1 hs).2
    rw [matchLoop_cons]
    split_ifs with h0 h1 h2 h3
    · exact hs
    · exact ih active o hrest
    · exact hs
    · exact pairwise_hpush htot htrans _ hrest
    · exact ih _ _ hrest

theorem matchLoop_price_origin (breakQ : ℚ → ℚ → Prop) [DecidableRel breakQ]
    (le : Order → Order → Prop) [DecidableRel le] :
    ∀ (h : List Order) (active : List (ℕ × Order)) (o : Order) (x : Order),
      x ∈ (matchLoop breakQ le active h o).2.2.1 →
        ∃ y ∈ h, x.price = y.price := by
  intro h
  induction h with
  | nil => intro active o x hx; rw [matchLoop_nil] at hx; simp at hx
  | cons best rest ih =>
    intro active o x hx
    rw [matchLoop_cons] at hx
    split_ifs at hx with h0 h1 h2 h3
    · exact ⟨x, hx, rfl⟩
    · obtain ⟨y, hy, he⟩ := ih active o x hx
      exact ⟨y, List.mem_cons_of_mem _ hy, he⟩
    · exact ⟨x, hx, rfl⟩
    · rcases mem_hpush.1 hx with rfl | hx
      · exact ⟨best, List.mem_cons_self _ _, rfl⟩
      · exact ⟨x, List.mem_cons_of_mem _ hx, rfl⟩
    · obtain ⟨y, hy, he⟩ := ih _ _ x hx
      exact ⟨y, List.mem_cons_of_mem _ hy, he⟩

theorem matchLoop_break (breakQ : ℚ → ℚ → Prop) [DecidableRel breakQ]
    (le : Order → Order → Prop) [DecidableRel le]
    (hdown : ∀ x y q, le x y → breakQ x.price q → breakQ y.price q) :
    ∀ (h : List Order) (active : List (ℕ × Order)) (o : Order),
      h.Pairwise le → 0 < (matchLoop breakQ le active h o).2.2.2.quantity →
        ∀ x ∈ (matchLoop breakQ le active h o).2.2.1, breakQ x.price o.price := by
  intro h
  induction h with
  | nil => intro active o _ _ x hx; rw [matchLoop_nil] at hx; simp at hx
  | cons best rest ih =>
    intro active o hs hq x hx
    rw [matchLoop_cons] at hq hx
    split_ifs at hq hx with h0 h1 h2 h3
    · exact absurd hq (by simp [h0])
    · exact ih active o (List.pairwise_cons.1 hs).2 hq x hx
    · rcases List.mem_cons.1 hx with rfl | hx
      · exact h2
      · exact hdown best x o.price ((List.pairwise_cons.1 hs).1 x hx) h2
    · exfalso
      have hmin : min best.quantity o.quantity = o.quantity := by omega
      rw [hmin] at hq
      simp at hq
    · exact ih _ _ (List.pairwise_cons.1 hs).2 hq x hx

/- ===== cleanHeap lemmas ===== -/

theorem cleanHeap_sublist (active : List (ℕ × Order)) :
    ∀ h : List Order, List.Sublist (cleanHeap active h) h := by
  intro h
  induction h with
  | nil => simp [cleanHeap_nil]
  | cons e t ih =>
    rw [cleanHeap_cons]
    by_cases he : (lookupA active e.id).isNone
    · rw [if_pos he]
      exact ih.trans (List.sublist_cons_self _ _)
    · rw [if_neg he]

theorem cleanHeap_mem_of_live (active : List (ℕ × Order)) :
    ∀ (h : List Order) (e : Order), e ∈ h → (lookupA active e.id).isSome →
      e ∈ cleanHeap active h := by
  intro h
  induction h with
  | nil => intro e he _; simp at he
  | cons f t ih =>
    intro e he hs
    rw [cleanHeap_cons]
    by_cases hf : (lookupA active f.id).isNone
    · rw [if_pos hf]
      rcases List.mem_cons.1 he with rfl | he
      · rw [Option.isNone_iff_eq_none] at hf
        rw [hf] at hs
        simp at hs
      · exact ih e he hs
    · rw [if_neg hf]
      exact he

/- ===== Claim C1 ===== -/

/-- Claim C1: `add_order` performs price-time matching with the partial-fill
rewrite.  Concretely: a book holding one resting SELL(qty 5, price 100, t 0)
receiving BUY(qty 8, price 101, t 1) returns exactly [Trade(100, 5, 1)],
leaves the ask side empty of live orders (here: the ask heap is empty and the
SELL id is gone from the active set), and rests the residual BUY with qty 3 at
price 101 as top of bid with a matching active record.  The second conjunct
block exercises the partial-fill branch: a resting SELL(qty 8) hit by a
BUY(qty 5) trades 5, keeps a live ask entry and active record rewritten to
qty 3, and fully consumes the incoming order. -/
theorem claim_C1 :
    ((add_order demoBook ⟨2, 1, 101, 8, Side.BUY⟩).1 = [⟨100, 5, 1⟩] ∧
     (add_order demoBook ⟨2, 1, 101, 8, Side.BUY⟩).2.askHeap = [] ∧
     lookupA (add_order demoBook ⟨2, 1, 101, 8, Side.BUY⟩).2.active 1 = none ∧
     (add_order demoBook ⟨2, 1, 101, 8, Side.BUY⟩).2.bidHeap =
       [⟨2, 1, 101, 3, Side.BUY⟩] ∧
     lookupA (add_order demoBook ⟨2, 1, 101, 8, Side.BUY⟩).2.active 2 =
       some ⟨2, 1, 101, 3, Side.BUY⟩) ∧
    ((add_order (add_order emptyBook ⟨1, 0, 100, 8, Side.SELL⟩).2
        ⟨2, 1, 101, 5, Side.BUY⟩).1 = [⟨100, 5, 1⟩] ∧
     (add_order (add_order emptyBook ⟨1, 0, 100, 8, Side.SELL⟩).2
        ⟨2, 1, 101, 5, Side.BUY⟩).2.askHeap = [⟨1, 0, 100, 3, Side.SELL⟩] ∧
     lookupA (add_order (add_order emptyBook ⟨1, 0, 100, 8, Side.SELL⟩).2
        ⟨2, 1, 101, 5, Side.BUY⟩).2.active 1 = some ⟨1, 0, 100, 3, Side.SELL⟩ ∧
     lookupA (add_order (add_order emptyBook ⟨1, 0, 100, 8, Side.SELL⟩).2
        ⟨2, 1, 101, 5, Side.BUY⟩).2.active 2 = none ∧
     (add_order (add_order emptyBook ⟨1, 0, 100, 8, Side.SELL⟩).2
        ⟨2, 1, 101, 5, Side.BUY⟩).2.bidHeap = []) := by
  decide

/- ===== Uncrossed-book invariant (claim C3) ===== -/

theorem bidLE_price_le (x y : Order) (h : bidLE x y) : y.price ≤ x.price := by
  unfold bidLE at h
  rcases h with h | ⟨h, _⟩
  · exact le_of_lt h
  · exact le_of_eq h.symm

theorem askLE_price_le (x y : Order) (h : askLE x y) : x.price ≤ y.price := by
  unfold askLE at h
  rcases h with h | ⟨h, _⟩
  · exact le_of_lt h
  · exact le_of_eq h

theorem inv3_empty : Inv3 emptyBook :=
  ⟨List.Pairwise.nil, List.Pairwise.nil, fun x hx => absurd hx (List.not_mem_nil x)⟩

theorem inv3_add (b : Book) (o : Order) (h3 : Inv3 b) : Inv3 (add_order b o).2 := by
  cases hside : o.side
  · -- BUY: crosses the ask heap, residual rests on bid
    rcases hm : matchLoop buyBreak askLE b.active b.askHeap o with ⟨trades, a, newAsk, o2⟩
    have hsort : newAsk.Pairwise askLE := by
      have hh := matchLoop_sorted buyBreak askLE askLE_total askLE_trans
        b.askHeap b.active o h3.ask_sorted
      rwa [hm] at hh
    have horigin : ∀ x ∈ newAsk, ∃ y ∈ b.askHeap, x.price = y.price := by
      intro x hx
      exact matchLoop_price_origin buyBreak askLE b.askHeap b.active o x (by rw [hm]; exact hx)
    have hbreak : 0 < o2.quantity → ∀ x ∈ newAsk, o.price < x.price := by
      intro hq x hx
      exact matchLoop_break buyBreak askLE
        (fun u v q huv hb => lt_of_lt_of_le hb (askLE_price_le u v huv))
        b.askHeap b.active o h3.ask_sorted (by rw [hm]; exact hq) x (by rw [hm]; exact hx)
    have hfields := matchLoop_order_fields buyBreak askLE b.askHeap b.active o
    rw [hm] at hfields
    simp only [add_order, hside, hm]
    by_cases hq : 0 < o2.quantity
    · rw [if_pos hq]
      refine ⟨hsort, pairwise_hpush bidLE_total bidLE_trans _ h3.bid_sorted, ?_⟩
      intro x hx y hy
      rcases mem_hpush.1 hx with rfl | hx
      · rw [hfields.2.1]
        exact hbreak hq y hy
      · obtain ⟨y0, hy0, he0⟩ := horigin y hy
        rw [he0]
        exact h3.cross x hx y0 hy0
    · rw [if_neg hq]
      refine ⟨hsort, h3.bid_sorted, ?_⟩
      intro x hx y hy
      obtain ⟨y0, hy0, he0⟩ := horigin y hy
      rw [he0]
      exact h3.cross x hx y0 hy0
  · -- SELL: crosses the bid heap, residual rests on ask
    rcases hm : matchLoop sellBreak bidLE b.active b.bidHeap o with ⟨trades, a, newBid, o2⟩
    have hsort : newBid.Pairwise bidLE := by
      have hh := matchLoop_sorted sellBreak bidLE bidLE_total bidLE_trans
        b.bidHeap b.active o h3.bid_sorted
      rwa [hm] at hh
    have horigin : ∀ x ∈ newBid, ∃ y ∈ b.bidHeap, x.price = y.price := by
      intro x hx
      exact matchLoop_price_origin sellBreak bidLE b.bidHeap b.active o x (by rw [hm]; exact hx)
    have hbreak : 0 < o2.quantity → ∀ x ∈ newBid, x.price < o.price := by
      intro hq x hx
      exact matchLoop_break sellBreak bidLE
        (fun u v q huv hb => lt_of_le_of_lt (bidLE_price_le u v huv) hb)
        b.bidHeap b.active o h3.bid_sorted (by rw [hm]; exact hq) x (by rw [hm]; exact hx)
    have hfields := matchLoop_order_fields sellBreak bidLE b.bidHeap b.active o
    rw [hm] at hfields
    simp only [add_order, hside, hm]
    by_cases hq : 0 < o2.quantity
    · rw [if_pos hq]
      refine ⟨pairwise_hpush askLE_total askLE_trans _ h3.ask_sorted, hsort, ?_⟩
      intro x hx y hy
      rcases mem_hpush.1 hy with rfl | hy
      · rw [hfields.2.1]
        exact hbreak hq x hx
      · obtain ⟨x0, hx0, he0⟩ := horigin x hx
        rw [he0]
        exact h3.cross x0 hx0 y hy
    · rw [if_neg hq]
      refine ⟨h3.ask_sorted, hsort, ?_⟩
      intro x hx y hy
      obtain ⟨x0, hx0, he0⟩ := horigin x hx
      rw [he0]
      exact h3.cross x0 hx0 y hy

theorem inv3_addOrders : ∀ (os : List Order) (b : Book), Inv3 b → Inv3 (addOrders b os) := by
  intro os
  induction os with
  | nil => intro b h3; simpa [addOrders] using h3
  | cons o os ih =>
    intro b h3
    have hfold : addOrders b (o :: os) = addOrders (add_order b o).2 os := by
      simp [addOrders]
    rw [hfold]
    exact ih _ (inv3_add b o h3)

/-- Claim C3: in any book reachable from the empty book by a sequence of
`add_order` calls, whenever both heaps are non-empty (the condition under which
`get_mid` returns a non-fallback value), the top bid's price is at most the top
ask's price, and `get_mid` returns their average. -/
theorem claim_C3 (os : List Order) (f : ℚ) (x y : Order) (tb ta : List Order)
    (hbid : (addOrders emptyBook os).bidHeap = x :: tb)
    (hask : (addOrders emptyBook os).askHeap = y :: ta) :
    x.price ≤ y.price ∧
      get_mid (addOrders emptyBook os) f = 1/2 * (y.price + x.price) := by
  have h3 := inv3_addOrders os emptyBook inv3_empty
  constructor
  · exact le_of_lt (h3.cross x (hbid ▸ List.mem_cons_self _ _)
      y (hask ▸ List.mem_cons_self _ _))
  · simp [get_mid, hask, hbid]

/-- Witness for claim C3 at a concrete two-order book. -/
theorem claim_C3_witness :
    (⟨2, 1, 99, 5, Side.BUY⟩ : Order).price ≤ (⟨1, 0, 101, 5, Side.SELL⟩ : Order).price ∧
      get_mid (addOrders emptyBook [⟨1, 0, 101, 5, Side.SELL⟩, ⟨2, 1, 99, 5, Side.BUY⟩]) 7 =
        1/2 * ((⟨1, 0, 101, 5, Side.SELL⟩ : Order).price + (⟨2, 1, 99, 5, Side.BUY⟩ : Order).price) :=
  claim_C3 [⟨1, 0, 101, 5, Side.SELL⟩, ⟨2, 1, 99, 5, Side.BUY⟩] 7
    ⟨2, 1, 99, 5, Side.BUY⟩ ⟨1, 0, 101, 5, Side.SELL⟩ [] [] (by decide) (by decide)

/- ===== The lazy-cancellation invariant through the matching loop ===== -/

theorem matchLoop_master (breakQ : ℚ → ℚ → Prop) [DecidableRel breakQ]
    (le : Order → Order → Prop) [DecidableRel le]
    (htot : ∀ a b, ¬ le a b → le b a)
    (htrans : ∀ a b c, le a b → le b c → le a c)
    (sC : Side) (g : List Order) :
    ∀ (h : List Order) (active : List (ℕ × Order)) (o : Order),
      SideInv sC le active h g →
      SideInv sC le (matchLoop breakQ le active h o).2.1
        (matchLoop breakQ le active h o).2.2.1 g := by
  intro h
  induction h with
  | nil =>
    intro active o H
    rw [matchLoop_nil]
    exact H
  | cons best rest ih =>
    intro active o H
    have hnd_rest : (rest.map Order.id).Nodup := by
      have hh := H.h_nd
      rw [List.map_cons, List.nodup_cons] at hh
      exact hh.2
    have hbest_rest : best.id ∉ rest.map Order.id := by
      have hh := H.h_nd
      rw [List.map_cons, List.nodup_cons] at hh
      exact hh.1
    have hbest_g : best.id ∉ g.map Order.id :=
      H.h_disj best.id (List.mem_cons_self _ _)
    rw [matchLoop_cons]
    split_ifs with h0 h1 h2 h3
    · exact H
    · -- stale head popped
      refine ih active o ?_
      refine ⟨H.keys_ok, H.keys_nd, hnd_rest,
        (fun i hi => H.h_disj i (List.mem_cons_of_mem _ hi)),
        (fun e he => H.h_side e (List.mem_cons_of_mem _ he)), ?_, ?_, ?_⟩
      · intro p hp
        obtain ⟨e, he, hid⟩ := H.wit p hp
        have hkey : lookupA active p.1 ≠ none := by
          rw [Ne, lookupA_eq_none]
          exact fun hc => hc (List.mem_map.2 ⟨p, hp, rfl⟩)
        by_cases hps : p.2.side = sC
        · rw [if_pos hps] at he
          rcases List.mem_cons.1 he with rfl | he
          · exfalso
            rw [Option.isNone_iff_eq_none] at h1
            exact hkey (hid ▸ h1)
          · exact ⟨e, by rw [if_pos hps]; exact he, hid⟩
        · rw [if_neg hps] at he
          exact ⟨e, by rw [if_neg hps]; exact he, hid⟩
      · intro e he w hw
        exact H.cons e (he.imp (List.mem_cons_of_mem _) id) w hw
      · exact (List.pairwise_cons.1 H.sorted).2
    · exact H
    · -- partial fill of the resting head
      have hupd_side : best.side = sC := H.h_side best (List.mem_cons_self _ _)
      refine ⟨?_, keys_nodup_insertA _ _ H.keys_nd, ?_, ?_, ?_, ?_, ?_, ?_⟩
      · intro p hp
        rcases mem_insertA_elim H.keys_nd hp with rfl | ⟨hp2, _⟩
        · rfl
        · exact H.keys_ok p hp2
      · rw [((hpush_perm le _ rest).map Order.id).nodup_iff]
        exact H.h_nd
      · intro i hi
        have hi2 := ((hpush_perm le _ rest).map Order.id).mem_iff.1 hi
        rcases List.mem_cons.1 hi2 with rfl | hi2
        · exact hbest_g
        · exact H.h_disj i (List.mem_cons_of_mem _ hi2)
      · intro e he
        rcases mem_hpush.1 he with rfl | he
        · exact hupd_side
        · exact H.h_side e (List.mem_cons_of_mem _ he)
      · intro p hp
        rcases mem_insertA_elim H.keys_nd hp with rfl | ⟨hp2, hne⟩
        · refine ⟨{ best with quantity := best.quantity - min best.quantity o.quantity },
            ?_, rfl⟩
          rw [if_pos hupd_side]
          exact mem_hpush.2 (Or.inl rfl)
        · obtain ⟨e, he, hid⟩ := H.wit p hp2
          by_cases hps : p.2.side = sC
          · rw [if_pos hps] at he
            rcases List.mem_cons.1 he with rfl | he
            · exact absurd hid.symm (by simpa using hne)
            · exact ⟨e, by rw [if_pos hps]; exact mem_hpush.2 (Or.inr he), hid⟩
          · rw [if_neg hps] at he
            exact ⟨e, by rw [if_neg hps]; exact he, hid⟩
      · intro e he w hw
        rcases he with he | he
        · rcases mem_hpush.1 he with rfl | he
          · rw [show ({ best with quantity := best.quantity - min best.quantity o.quantity} :
                Order).id = best.id from rfl, lookupA_insertA_self] at hw
            obtain rfl := Option.some.inj hw
            exact ⟨le_refl _, rfl, rfl, rfl⟩
          · have hne : e.id ≠ best.id := by
              intro hc
              exact hbest_rest (hc ▸ List.mem_map.2 ⟨e, he, rfl⟩)
            rw [lookupA_insertA_ne _ _ _ _ hne] at hw
            exact H.cons e (Or.inl (List.mem_cons_of_mem _ he)) w hw
        · have hne : e.id ≠ best.id := by
            intro hc
            exact hbest_g (hc ▸ List.mem_map.2 ⟨e, he, rfl⟩)
          rw [lookupA_insertA_ne _ _ _ _ hne] at hw
          exact H.cons e (Or.inr he) w hw
      · exact pairwise_hpush htot htrans _ (List.pairwise_cons.1 H.sorted).2
    · -- resting head fully consumed
      refine ih _ _ ?_
      refine ⟨?_, List.Nodup.sublist (keys_eraseA_sublist active best.id) H.keys_nd,
        hnd_rest,
        (fun i hi => H.h_disj i (List.mem_cons_of_mem _ hi)),
        (fun e he => H.h_side e (List.mem_cons_of_mem _ he)), ?_, ?_, ?_⟩
      · intro p hp
        exact H.keys_ok p (mem_eraseA.1 hp).1
      · intro p hp
        obtain ⟨hp2, hne⟩ := mem_eraseA.1 hp
        obtain ⟨e, he, hid⟩ := H.wit p hp2
        by_cases hps : p.2.side = sC
        · rw [if_pos hps] at he
          rcases List.mem_cons.1 he with rfl | he
          · exact absurd (hid ▸ hne) (by simp)
          · exact ⟨e, by rw [if_pos hps]; exact he, hid⟩
        · rw [if_neg hps] at he
          exact ⟨e, by rw [if_neg hps]; exact he, hid⟩
      · intro e he w hw
        by_cases hne : e.id = best.id
        · rw [hne, lookupA_eraseA_self] at hw
          exact Option.noConfusion hw
        · rw [lookupA_eraseA_ne _ _ _ hne] at hw
          exact H.cons e (he.imp (List.mem_cons_of_mem _) id) w hw
      · exact (List.pairwise_cons.1 H.sorted).2

/- ===== sideHeap bridging equations ===== -/

theorem sideHeap_eq_if (b : Book) (s : Side) :
    sideHeap b s = if s = Side.BUY then b.bidHeap else b.askHeap := by
  cases s <;> simp [sideHeap]

theorem sideHeap_eq_if_sell (b : Book) (s : Side) :
    sideHeap b s = if s = Side.SELL then b.askHeap else b.bidHeap := by
  cases s <;> simp [sideHeap]

theorem sideHeap_mk (active2 : List (ℕ × Order)) (ask2 bid2 : List Order) (s : Side) :
    sideHeap ⟨active2, ask2, bid2⟩ s = if s = Side.BUY then bid2 else ask2 := by
  cases s <;> simp [sideHeap]

theorem sideHeap_mk_sell (active2 : List (ℕ × Order)) (ask2 bid2 : List Order) (s : Side) :
    sideHeap ⟨active2, ask2, bid2⟩ s = if s = Side.SELL then ask2 else bid2 := by
  cases s <;> simp [sideHeap]

theorem sideHeap_decay (b : Book) (ids : List ℕ) (s : Side) :
    sideHeap (decay b ids) s = sideHeap b s := by
  cases s <;> rfl

theorem sideHeap_clean (b : Book) (s : Side) :
    sideHeap (clean_heaps b) s = cleanHeap b.active (sideHeap b s) := by
  cases s <;> rfl

/- ===== Invariant preservation by the book operations ===== -/

theorem inv_empty : Inv emptyBook :=
  ⟨fun p hp => absurd hp (List.not_mem_nil p), List.nodup_nil, List.nodup_nil,
   List.nodup_nil, fun i hi => absurd hi (List.not_mem_nil i),
   fun e he => absurd he (List.not_mem_nil e),
   fun e he => absurd he (List.not_mem_nil e),
   fun p hp => absurd hp (List.not_mem_nil p),
   fun e he _ _ => absurd (he.elim id id) (List.not_mem_nil e),
   List.Pairwise.nil, List.Pairwise.nil⟩

theorem inv_add (b : Book) (o : Order) (hb : Inv b) (hf : Fresh b o.id) :
    Inv (add_order b o).2 := by
  obtain ⟨hfa, hfask, hfbid⟩ := hf
  cases hso : o.side
  · -- BUY: crosses the ask heap, residual rests on bid
    rcases hm : matchLoop buyBreak askLE b.active b.askHeap o with ⟨trades, a, newAsk, o2⟩
    have HS0 : SideInv Side.SELL askLE b.active b.askHeap b.bidHeap := by
      refine ⟨hb.keys_ok, hb.keys_nd, hb.ask_nd, hb.disj, hb.ask_side, ?_, ?_, hb.ask_sorted⟩
      · intro p hp
        have hw := hb.wit p hp
        rwa [sideHeap_eq_if_sell] at hw
      · intro e he w hw
        exact hb.cons e he w hw
    have HS := matchLoop_master buyBreak askLE askLE_total askLE_trans Side.SELL
      b.bidHeap b.askHeap b.active o HS0
    rw [hm] at HS
    have hids : ∀ i ∈ newAsk.map Order.id, i ∈ b.askHeap.map Order.id := by
      intro i hi
      have hh := matchLoop_ids_subset buyBreak askLE b.askHeap b.active o i
      rw [hm] at hh
      exact hh hi
    have hoff : ∀ i, i ∉ b.askHeap.map Order.id → lookupA a i = lookupA b.active i := by
      intro i hi
      have hh := matchLoop_lookupA_off buyBreak askLE b.askHeap b.active o i hi
      rwa [hm] at hh
    have hfields := matchLoop_order_fields buyBreak askLE b.askHeap b.active o
    rw [hm] at hfields
    obtain ⟨hfid, hfpr, hfts, hfsd⟩ := hfields
    have ho2a : lookupA a o.id = none := by rw [hoff o.id hfask]; exact hfa
    have ho2ask : o.id ∉ newAsk.map Order.id := fun hc => hfask (hids _ hc)
    simp only [add_order, hso, hm]
    by_cases hq : 0 < o2.quantity
    · rw [if_pos hq]
      refine ⟨?_, keys_nodup_insertA _ _ HS.keys_nd, HS.h_nd, ?_, ?_, HS.h_side, ?_,
        ?_, ?_, HS.sorted, pairwise_hpush bidLE_total bidLE_trans _ hb.bid_sorted⟩
      · intro p hp
        rcases mem_insertA_elim HS.keys_nd hp with rfl | ⟨hp2, _⟩
        · rfl
        · exact HS.keys_ok p hp2
      · rw [((hpush_perm bidLE o2 b.bidHeap).map Order.id).nodup_iff, List.map_cons,
          List.nodup_cons]
        exact ⟨by rw [hfid]; exact hfbid, hb.bid_nd⟩
      · intro i hi hib
        have hi2 := ((hpush_perm bidLE o2 b.bidHeap).map Order.id).mem_iff.1 hib
        rcases List.mem_cons.1 hi2 with heq | hi2
        · rw [heq, hfid] at hi
          exact hfask (hids _ hi)
        · exact hb.disj i (hids i hi) hi2
      · intro e he
        rcases mem_hpush.1 he with rfl | he
        · rw [hfsd]; exact hso
        · exact hb.bid_side e he
      · intro p hp
        rw [sideHeap_mk]
        rcases mem_insertA_elim HS.keys_nd hp with rfl | ⟨hp2, _⟩
        · have hps : o2.side = Side.BUY := by rw [hfsd]; exact hso
          rw [if_pos hps]
          exact ⟨o2, mem_hpush.2 (Or.inl rfl), rfl⟩
        · obtain ⟨e, he, hid⟩ := HS.wit p hp2
          by_cases hps : p.2.side = Side.SELL
          · rw [if_pos hps] at he
            rw [if_neg (by rw [hps]; simp)]
            exact ⟨e, he, hid⟩
          · rw [if_neg hps] at he
            have hps2 : p.2.side = Side.BUY := by
              cases hps3 : p.2.side
              · rfl
              · exact absurd hps3 hps
            rw [if_pos hps2]
            exact ⟨e, mem_hpush.2 (Or.inr he), hid⟩
      · intro e he w hw
        rcases he with he | he
        · have hne : e.id ≠ o2.id := by
            rw [hfid]
            intro hc
            exact ho2ask (hc ▸ List.mem_map.2 ⟨e, he, rfl⟩)
          rw [lookupA_insertA_ne _ _ _ _ hne] at hw
          exact HS.cons e (Or.inl he) w hw
        · rcases mem_hpush.1 he with rfl | he
          · rw [lookupA_insertA_self] at hw
            obtain rfl := Option.some.inj hw
            exact ⟨le_refl _, rfl, rfl, rfl⟩
          · have hne : e.id ≠ o2.id := by
              rw [hfid]
              intro hc
              exact hfbid (hc ▸ List.mem_map.2 ⟨e, he, rfl⟩)
            rw [lookupA_insertA_ne _ _ _ _ hne] at hw
            exact HS.cons e (Or.inr he) w hw
    · rw [if_neg hq]
      refine ⟨HS.keys_ok, HS.keys_nd, HS.h_nd, hb.bid_nd, ?_, HS.h_side, hb.bid_side,
        ?_, ?_, HS.sorted, hb.bid_sorted⟩
      · intro i hi hib
        exact hb.disj i (hids i hi) hib
      · intro p hp
        rw [sideHeap_mk_sell]
        exact HS.wit p hp
      · intro e he w hw
        exact HS.cons e he w hw
  · -- SELL: crosses the bid heap, residual rests on ask
    rcases hm : matchLoop sellBreak bidLE b.active b.bidHeap o with ⟨trades, a, newBid, o2⟩
    have HS0 : SideInv Side.BUY bidLE b.active b.bidHeap b.askHeap := by
      refine ⟨hb.keys_ok, hb.keys_nd, hb.bid_nd, ?_, hb.bid_side, ?_, ?_, hb.bid_sorted⟩
      · intro i hi hig
        exact hb.disj i hig hi
      · intro p hp
        have hw := hb.wit p hp
        rwa [sideHeap_eq_if] at hw
      · intro e he w hw
        exact hb.cons e he.symm w hw
    have HS := matchLoop_master sellBreak bidLE bidLE_total bidLE_trans Side.BUY
      b.askHeap b.bidHeap b.active o HS0
    rw [hm] at HS
    have hids : ∀ i ∈ newBid.map Order.id, i ∈ b.bidHeap.map Order.id := by
      intro i hi
      have hh := matchLoop_ids_subset sellBreak bidLE b.bidHeap b.active o i
      rw [hm] at hh
      exact hh hi
    have hoff : ∀ i, i ∉ b.bidHeap.map Order.id → lookupA a i = lookupA b.active i := by
      intro i hi
      have hh := matchLoop_lookupA_off sellBreak bidLE b.bidHeap b.active o i hi
      rwa [hm] at hh
    have hfields := matchLoop_order_fields sellBreak bidLE b.bidHeap b.active o
    rw [hm] at hfields
    obtain ⟨hfid, hfpr, hfts, hfsd⟩ := hfields
    have ho2a : lookupA a o.id = none := by rw [hoff o.id hfbid]; exact hfa
    have ho2bid : o.id ∉ newBid.map Order.id := fun hc => hfbid (hids _ hc)
    simp only [add_order, hso, hm]
    by_cases hq : 0 < o2.quantity
    · rw [if_pos hq]
      refine ⟨?_, keys_nodup_insertA _ _ HS.keys_nd, ?_, HS.h_nd, ?_, ?_, HS.h_side,
        ?_, ?_, pairwise_hpush askLE_total askLE_trans _ hb.ask_sorted, HS.sorted⟩
      · intro p hp
        rcases mem_insertA_elim HS.keys_nd hp with rfl | ⟨hp2, _⟩
        · rfl
        · exact HS.keys_ok p hp2
      · rw [((hpush_perm askLE o2 b.askHeap).map Order.id).nodup_iff, List.map_cons,
          List.nodup_cons]
        exact ⟨by rw [hfid]; exact hfask, hb.ask_nd⟩
      · intro i hi hib
        have hi2 := ((hpush_perm askLE o2 b.askHeap).map Order.id).mem_iff.1 hi
        rcases List.mem_cons.1 hi2 with heq | hi2
        · rw [heq, hfid] at hib
          exact ho2bid hib
        · exact hb.disj i hi2 (hids i hib)
      · intro e he
        rcases mem_hpush.1 he with rfl | he
        · rw [hfsd]; exact hso
        · exact hb.ask_side e he
      · intro p hp
        rw [sideHeap_mk]
        rcases mem_insertA_elim HS.keys_nd hp with rfl | ⟨hp2, _⟩
        · have hps : o2.side = Side.SELL := by rw [hfsd]; exact hso
          rw [if_neg (by rw [hps]; simp)]
          exact ⟨o2, mem_hpush.2 (Or.inl rfl), rfl⟩
        · obtain ⟨e, he, hid⟩ := HS.wit p hp2
          by_cases hps : p.2.side = Side.BUY
          · rw [if_pos hps] at he
            rw [if_pos hps]
            exact ⟨e, he, hid⟩
          · rw [if_neg hps] at he
            rw [if_neg hps]
            exact ⟨e, mem_hpush.2 (Or.inr he), hid⟩
      · intro e he w hw
        rcases he with he | he
        · rcases mem_hpush.1 he with rfl | he
          · rw [lookupA_insertA_self] at hw
            obtain rfl := Option.some.inj hw
            exact ⟨le_refl _, rfl, rfl, rfl⟩
          · have hne : e.id ≠ o2.id := by
              rw [hfid]
              intro hc
              exact hfask (hc ▸ List.mem_map.2 ⟨e, he, rfl⟩)
            rw [lookupA_insertA_ne _ _ _ _ hne] at hw
            exact HS.cons e (Or.inr he) w hw
        · have hne : e.id ≠ o2.id := by
            rw [hfid]
            intro hc
            exact ho2bid (hc ▸ List.mem_map.2 ⟨e, he, rfl⟩)
          rw [lookupA_insertA_ne _ _ _ _ hne] at hw
          exact HS.cons e (Or.inl he) w hw
    · rw [if_neg hq]
      refine ⟨HS.keys_ok, HS.keys_nd, hb.ask_nd, HS.h_nd, ?_, hb.ask_side, HS.h_side,
        ?_, ?_, hb.ask_sorted, HS.sorted⟩
      · intro i hi hib
        exact hb.disj i hi (hids i hib)
      · intro p hp
        rw [sideHeap_mk]
        exact HS.wit p hp
      · intro e he w hw
        exact HS.cons e he.symm w hw

theorem inv_decay (b : Book) (ids : List ℕ) (hb : Inv b) : Inv (decay b ids) := by
  refine ⟨?_, ?_, hb.ask_nd, hb.bid_nd, hb.disj, hb.ask_side, hb.bid_side, ?_, ?_,
    hb.ask_sorted, hb.bid_sorted⟩
  · intro p hp
    exact hb.keys_ok p (mem_foldl_eraseA ids _ p hp)
  · exact List.Nodup.sublist (keys_foldl_eraseA_sublist ids _) hb.keys_nd
  · intro p hp
    rw [sideHeap_decay]
    exact hb.wit p (mem_foldl_eraseA ids _ p hp)
  · intro e he w hw
    exact hb.cons e he w (lookupA_foldl_eraseA ids _ _ _ hw)

theorem inv_clean (b : Book) (hb : Inv b) : Inv (clean_heaps b) := by
  have hsa := cleanHeap_sublist b.active b.askHeap
  have hsb := cleanHeap_sublist b.active b.bidHeap
  refine ⟨hb.keys_ok, hb.keys_nd,
    List.Nodup.sublist (List.Sublist.map Order.id hsa) hb.ask_nd,
    List.Nodup.sublist (List.Sublist.map Order.id hsb) hb.bid_nd, ?_, ?_, ?_, ?_, ?_,
    List.Pairwise.sublist hsa hb.ask_sorted, List.Pairwise.sublist hsb hb.bid_sorted⟩
  · intro i hi hib
    exact hb.disj i ((List.Sublist.map Order.id hsa).subset hi)
      ((List.Sublist.map Order.id hsb).subset hib)
  · intro e he
    exact hb.ask_side e (hsa.subset he)
  · intro e he
    exact hb.bid_side e (hsb.subset he)
  · intro p hp
    obtain ⟨e, he, hid⟩ := hb.wit p hp
    have hlive : (lookupA b.active e.id).isSome := by
      rw [lookupA_isSome_iff, hid]
      exact List.mem_map.2 ⟨p, hp, rfl⟩
    rw [sideHeap_clean]
    exact ⟨e, cleanHeap_mem_of_live b.active (sideHeap b p.2.side) e he hlive, hid⟩
  · intro e he w hw
    exact hb.cons e (he.imp (fun hh => hsa.subset hh) (fun hh => hsb.subset hh)) w hw

theorem get_metrics_book (b : Book) : (get_metrics b).2 = clean_heaps b := by
  cases h1 : (clean_heaps b).askHeap <;> cases h2 : (clean_heaps b).bidHeap <;>
    simp [get_metrics, h1, h2]

theorem reach_inv : ∀ b : Book, Reach b → Inv b := by
  intro b hr
  induction hr with
  | empty => exact inv_empty
  | add b o _ hf ih => exact inv_add b o ih hf
  | decayed b ids _ ih => exact inv_decay b ids ih
  | cleaned b _ ih => exact inv_clean b ih
  | metrics b _ ih => rw [get_metrics_book]; exact inv_clean b ih

/-- Claim C4: in every reachable book state, every id in the active set has at
least one heap entry on the matching side with the same id, and every non-stale
heap entry's quantity is at most the active-set record's quantity.  (Reachable
means: by add_order with fresh ids — the engines' monotone id counter — decay,
clean_heaps and get_metrics, from the empty book.) -/
theorem claim_C4 (b : Book) (hb : Reach b) :
    (∀ p ∈ b.active, ∃ e ∈ sideHeap b p.2.side, e.id = p.1) ∧
    (∀ e ∈ b.askHeap ++ b.bidHeap, ∀ w, lookupA b.active e.id = some w →
      e.quantity ≤ w.quantity) := by
  have hi := reach_inv b hb
  exact ⟨hi.wit, fun e he w hw => (hi.cons e (List.mem_append.1 he) w hw).1⟩

/-- Witness for claim C4 at a concrete reachable book. -/
theorem claim_C4_witness :
    (∀ p ∈ demoBook.active, ∃ e ∈ sideHeap demoBook p.2.side, e.id = p.1) ∧
    (∀ e ∈ demoBook.askHeap ++ demoBook.bidHeap, ∀ w,
      lookupA demoBook.active e.id = some w → e.quantity ≤ w.quantity) :=
  claim_C4 demoBook (Reach.add emptyBook ⟨1, 0, 100, 5, Side.SELL⟩ Reach.empty (by decide))

/- ===== Price-time priority (claim C2) ===== -/

theorem matchLoop_priority (breakQ : ℚ → ℚ → Prop) [DecidableRel breakQ]
    (le : Order → Order → Prop) [DecidableRel le]
    (hleq : ∀ (x : Order) (q : ℕ) (y : Order), le { x with quantity := q } y ↔ le x y) :
    ∀ (l₁ l₂ : List Order) (B : Order) (active : List (ℕ × Order)) (o : Order) (ai : ℕ),
      ((l₁ ++ B :: l₂).map Order.id).Nodup →
      (l₁ ++ B :: l₂).Pairwise le →
      ai ∈ l₁.map Order.id →
      lookupA active ai ≠ none →
      (lookupA (matchLoop breakQ le active (l₁ ++ B :: l₂) o).2.1 B.id =
          lookupA active B.id ∧
       lookupA (matchLoop breakQ le active (l₁ ++ B :: l₂) o).2.1 ai ≠ none ∧
       ∃ l₃, (matchLoop breakQ le active (l₁ ++ B :: l₂) o).2.2.1 = l₃ ++ B :: l₂ ∧
         ai ∈ l₃.map Order.id) ∨
      (lookupA (matchLoop breakQ le active (l₁ ++ B :: l₂) o).2.1 ai = none ∧
       ai ∉ ((matchLoop breakQ le active (l₁ ++ B :: l₂) o).2.2.1).map Order.id) := by
  intro l₁
  induction l₁ with
  | nil => intro l₂ B active o ai _ _ hmem _; simp at hmem
  | cons best t ih =>
    intro l₂ B active o ai hnd hsort hmem halive
    simp only [List.cons_append] at hnd hsort ⊢
    rw [List.map_cons, List.nodup_cons] at hnd
    obtain ⟨hbestnot, hndt⟩ := hnd
    have hsortt := (List.pairwise_cons.1 hsort).2
    have hBmem : B.id ∈ (t ++ B :: l₂).map Order.id :=
      List.mem_map.2 ⟨B, List.mem_append.2 (Or.inr (List.mem_cons_self _ _)), rfl⟩
    have hBneb : B.id ≠ best.id := fun hc => hbestnot (hc ▸ hBmem)
    rw [matchLoop_cons]
    split_ifs with h0 h1 h2 h3
    · exact Or.inl ⟨rfl, halive, best :: t, rfl, hmem⟩
    · have haib : ai ≠ best.id := by
        intro hc
        rw [Option.isNone_iff_eq_none] at h1
        exact halive (hc ▸ h1)
      have hmem2 : ai ∈ t.map Order.id := by
        rcases List.mem_cons.1 hmem with hc | hc
        · exact absurd hc haib
        · exact hc
      exact ih l₂ B active o ai hndt hsortt hmem2 halive
    · exact Or.inl ⟨rfl, halive, best :: t, rfl, hmem⟩
    · have hle_all : ∀ y ∈ t ++ B :: l₂,
          le { best with quantity := best.quantity - min best.quantity o.quantity } y := by
        intro y hy
        exact (hleq best _ y).2 ((List.pairwise_cons.1 hsort).1 y hy)
      rw [hpush_eq_cons hle_all]
      left
      refine ⟨lookupA_insertA_ne _ _ _ _ hBneb, ?_,
        { best with quantity := best.quantity - min best.quantity o.quantity } :: t,
        rfl, ?_⟩
      · by_cases hai : ai = best.id
        · rw [hai, lookupA_insertA_self]
          exact fun hc => Option.noConfusion hc
        · rw [lookupA_insertA_ne _ _ _ _ hai]
          exact halive
      · exact hmem
    · by_cases hai : ai = best.id
      · right
        have hnotin : ai ∉ (t ++ B :: l₂).map Order.id := hai ▸ hbestnot
        constructor
        · rw [matchLoop_lookupA_off breakQ le _ _ _ ai hnotin, hai, lookupA_eraseA_self]
        · intro hc
          exact hnotin (matchLoop_ids_subset breakQ le _ _ _ ai hc)
      · have hmem2 : ai ∈ t.map Order.id := by
          rcases List.mem_cons.1 hmem with hc | hc
          · exact absurd hc hai
          · exact hc
        have halive2 : lookupA (eraseA active best.id) ai ≠ none := by
          rw [lookupA_eraseA_ne _ _ _ hai]
          exact halive
        have res := ih l₂ B (eraseA active best.id)
          { o with quantity := o.quantity - min best.quantity o.quantity } ai
          hndt hsortt hmem2 halive2
        rcases res with ⟨hB2, hA2, l₃, hheap, hmem3⟩ | ⟨hA2, hnot⟩
        · left
          refine ⟨?_, hA2, l₃, hheap, hmem3⟩
          rw [hB2, lookupA_eraseA_ne _ _ _ hBneb]
        · exact Or.inr ⟨hA2, hnot⟩

theorem pairwise_split {le : Order → Order → Prop} {l : List Order}
    (hp : l.Pairwise le) {x y : Order} (hx : x ∈ l) (hy : y ∈ l) (hxy : x ≠ y)
    (hnot : ¬ le y x) : ∃ l₁ l₂, l = l₁ ++ y :: l₂ ∧ x ∈ l₁ := by
  obtain ⟨l₁, l₂, rfl⟩ := List.append_of_mem hy
  rcases List.mem_append.1 hx with hx1 | hx2
  · exact ⟨l₁, l₂, rfl, hx1⟩
  · rcases List.mem_cons.1 hx2 with rfl | hx2
    · exact absurd rfl hxy
    · exfalso
      have hyx := (List.pairwise_cons.1 (List.pairwise_append.1 hp).2.1).1 x hx2
      exact hnot hyx

theorem fresh_step (b : Book) (o : Order) (i : ℕ) (hne : o.id ≠ i)
    (hd : Fresh b i) : Fresh (add_order b o).2 i := by
  obtain ⟨h1, h2, h3⟩ := hd
  cases hso : o.side
  · -- BUY
    rcases hm : matchLoop buyBreak askLE b.active b.askHeap o with ⟨tr, a, newAsk, o2⟩
    have hoff := matchLoop_lookupA_off buyBreak askLE b.askHeap b.active o i h2
    rw [hm] at hoff
    have hsub : i ∉ newAsk.map Order.id := by
      intro hc
      have hh := matchLoop_ids_subset buyBreak askLE b.askHeap b.active o i
      rw [hm] at hh
      exact h2 (hh hc)
    have hfid := (matchLoop_order_fields buyBreak askLE b.askHeap b.active o).1
    rw [hm] at hfid
    have hio2 : i ≠ o2.id := by rw [hfid]; exact Ne.symm hne
    simp only [add_order, hso, hm]
    by_cases hq : 0 < o2.quantity
    · rw [if_pos hq]
      refine ⟨?_, hsub, ?_⟩
      · show lookupA (insertA a o2.id o2) i = none
        rw [lookupA_insertA_ne _ _ _ _ hio2, hoff]
        exact h1
      · show i ∉ (hpush bidLE o2 b.bidHeap).map Order.id
        intro hc
        have hc2 := ((hpush_perm bidLE o2 b.bidHeap).map Order.id).mem_iff.1 hc
        rcases List.mem_cons.1 hc2 with heq | hc2
        · exact hio2 heq
        · exact h3 hc2
    · rw [if_neg hq]
      exact ⟨by rw [hoff]; exact h1, hsub, h3⟩
  · -- SELL
    rcases hm : matchLoop sellBreak bidLE b.active b.bidHeap o with ⟨tr, a, newBid, o2⟩
    have hoff := matchLoop_lookupA_off sellBreak bidLE b.bidHeap b.active o i h3
    rw [hm] at hoff
    have hsub : i ∉ newBid.map Order.id := by
      intro hc
      have hh := matchLoop_ids_subset sellBreak bidLE b.bidHeap b.active o i
      rw [hm] at hh
      exact h3 (hh hc)
    have hfid := (matchLoop_order_fields sellBreak bidLE b.bidHeap b.active o).1
    rw [hm] at hfid
    have hio2 : i ≠ o2.id := by rw [hfid]; exact Ne.symm hne
    simp only [add_order, hso, hm]
    by_cases hq : 0 < o2.quantity
    · rw [if_pos hq]
      refine ⟨?_, ?_, hsub⟩
      · show lookupA (insertA a o2.id o2) i = none
        rw [lookupA_insertA_ne _ _ _ _ hio2, hoff]
        exact h1
      · show i ∉ (hpush askLE o2 b.askHeap).map Order.id
        intro hc
        have hc2 := ((hpush_perm askLE o2 b.askHeap).map Order.id).mem_iff.1 hc
        rcases List.mem_cons.1 hc2 with heq | hc2
        · exact hio2 heq
        · exact h2 hc2
    · rw [if_neg hq]
      exact ⟨by rw [hoff]; exact h1, h2, hsub⟩

theorem pt_step (b : Book) (o : Order) (hb : Inv b) (hfo : Fresh b o.id)
    (s : Side) (ai bi : ℕ) (B : Order)
    (hcontra : o.side ≠ s) (hai : o.id ≠ ai) (hbi : o.id ≠ bi)
    (hpt : PTlive s ai bi B b) :
    PTlive s ai bi B (add_order b o).2 ∨ Fresh (add_order b o).2 ai := by
  obtain ⟨halive, hBrec, eB, l₁, l₂, hheap, hidB, hmem⟩ := hpt
  have halive2 : lookupA b.active ai ≠ none := by
    intro hc
    rw [hc] at halive
    simp at halive
  cases s
  · -- A, B rest on the bid side; o is a SELL crossing the bid heap
    have hso : o.side = Side.SELL := by
      cases hso2 : o.side
      · exact absurd hso2 hcontra
      · rfl
    simp only [sideHeap] at hheap
    rcases hm : matchLoop sellBreak bidLE b.active b.bidHeap o with ⟨tr, a, newBid, o2⟩
    have hfid := (matchLoop_order_fields sellBreak bidLE b.bidHeap b.active o).1
    rw [hm] at hfid
    have haio2 : ai ≠ o2.id := by rw [hfid]; exact Ne.symm hai
    have hbio2 : bi ≠ o2.id := by rw [hfid]; exact Ne.symm hbi
    have hres := matchLoop_priority sellBreak bidLE bidLE_qty l₁ l₂ eB b.active o ai
      (hheap ▸ hb.bid_nd) (hheap ▸ hb.bid_sorted) hmem halive2
    rw [hheap] at hm
    rw [hm] at hres
    have haiask : ai ∉ b.askHeap.map Order.id := by
      intro hc
      refine hb.disj ai hc (hheap ▸ ?_)
      rcases List.mem_map.1 hmem with ⟨e, he, hide⟩
      exact List.mem_map.2 ⟨e, List.mem_append.2 (Or.inl he), hide⟩
    simp only [add_order, hso]
    rw [hheap, hm]
    rcases hres with ⟨hB2, hA2, l₃, hheap3, hmem3⟩ | ⟨hA2, hnot⟩
    · left
      by_cases hq : 0 < o2.quantity
      · rw [if_pos hq]
        refine ⟨?_, ?_, eB, l₃, l₂, ?_, hidB, hmem3⟩
        · show (lookupA (insertA a o2.id o2) ai).isSome
          rw [lookupA_insertA_ne _ _ _ _ haio2]
          exact Option.ne_none_iff_isSome.1 hA2
        · show lookupA (insertA a o2.id o2) bi = some B
          rw [lookupA_insertA_ne _ _ _ _ hbio2, ← hidB, hB2, hidB]
          exact hBrec
        · show newBid = l₃ ++ eB :: l₂
          exact hheap3
      · rw [if_neg hq]
        refine ⟨?_, ?_, eB, l₃, l₂, ?_, hidB, hmem3⟩
        · show (lookupA a ai).isSome
          exact Option.ne_none_iff_isSome.1 hA2
        · show lookupA a bi = some B
          rw [← hidB, hB2, hidB]
          exact hBrec
        · show newBid = l₃ ++ eB :: l₂
          exact hheap3
    · right
      by_cases hq : 0 < o2.quantity
      · rw [if_pos hq]
        refine ⟨?_, ?_, hnot⟩
        · show lookupA (insertA a o2.id o2) ai = none
          rw [lookupA_insertA_ne _ _ _ _ haio2]
          exact hA2
        · show ai ∉ (hpush askLE o2 b.askHeap).map Order.id
          intro hc
          have hc2 := ((hpush_perm askLE o2 b.askHeap).map Order.id).mem_iff.1 hc
          rcases List.mem_cons.1 hc2 with heq | hc2
          · exact haio2 heq
          · exact haiask hc2
      · rw [if_neg hq]
        exact ⟨hA2, haiask, hnot⟩
  · -- A, B rest on the ask side; o is a BUY crossing the ask heap
    have hso : o.side = Side.BUY := by
      cases hso2 : o.side
      · rfl
      · exact absurd hso2 hcontra
    simp only [sideHeap] at hheap
    rcases hm : matchLoop buyBreak askLE b.active b.askHeap o with ⟨tr, a, newAsk, o2⟩
    have hfid := (matchLoop_order_fields buyBreak askLE b.askHeap b.active o).1
    rw [hm] at hfid
    have haio2 : ai ≠ o2.id := by rw [hfid]; exact Ne.symm hai
    have hbio2 : bi ≠ o2.id := by rw [hfid]; exact Ne.symm hbi
    have hres := matchLoop_priority buyBreak askLE askLE_qty l₁ l₂ eB b.active o ai
      (hheap ▸ hb.ask_nd) (hheap ▸ hb.ask_sorted) hmem halive2
    rw [hheap] at hm
    rw [hm] at hres
    have haibid : ai ∉ b.bidHeap.map Order.id := by
      refine hb.disj ai (hheap ▸ ?_)
      rcases List.mem_map.1 hmem with ⟨e, he, hide⟩
      exact List.mem_map.2 ⟨e, List.mem_append.2 (Or.inl he), hide⟩
    simp only [add_order, hso]
    rw [hheap, hm]
    rcases hres with ⟨hB2, hA2, l₃, hheap3, hmem3⟩ | ⟨hA2, hnot⟩
    · left
      by_cases hq : 0 < o2.quantity
      · rw [if_pos hq]
        refine ⟨?_, ?_, eB, l₃, l₂, ?_, hidB, hmem3⟩
        · show (lookupA (insertA a o2.id o2) ai).isSome
          rw [lookupA_insertA_ne _ _ _ _ haio2]
          exact Option.ne_none_iff_isSome.1 hA2
        · show lookupA (insertA a o2.id o2) bi = some B
          rw [lookupA_insertA_ne _ _ _ _ hbio2, ← hidB, hB2, hidB]
          exact hBrec
        · show newAsk = l₃ ++ eB :: l₂
          exact hheap3
      · rw [if_neg hq]
        refine ⟨?_, ?_, eB, l₃, l₂, ?_, hidB, hmem3⟩
        · show (lookupA a ai).isSome
          exact Option.ne_none_iff_isSome.1 hA2
        · show lookupA a bi = some B
          rw [← hidB, hB2, hidB]
          exact hBrec
        · show newAsk = l₃ ++ eB :: l₂
          exact hheap3
    · right
      by_cases hq : 0 < o2.quantity
      · rw [if_pos hq]
        refine ⟨?_, hnot, ?_⟩
        · show lookupA (insertA a o2.id o2) ai = none
          rw [lookupA_insertA_ne _ _ _ _ haio2]
          exact hA2
        · show ai ∉ (hpush bidLE o2 b.bidHeap).map Order.id
          intro hc
          have hc2 := ((hpush_perm bidLE o2 b.bidHeap).map Order.id).mem_iff.1 hc
          rcases List.mem_cons.1 hc2 with heq | hc2
          · exact haio2 heq
          · exact haibid hc2
      · rw [if_neg hq]
        exact ⟨hA2, hnot, haibid⟩

theorem pt_run (s : Side) (ai bi : ℕ) (B : Order) :
    ∀ (os : List Order) (b : Book), Inv b → FreshSeq b os →
      (∀ o ∈ os, o.side ≠ s) → (∀ o ∈ os, o.id ≠ ai ∧ o.id ≠ bi) →
      (PTlive s ai bi B b ∨ Fresh b ai) →
      (PTlive s ai bi B (addOrders b os) ∨ Fresh (addOrders b os) ai) := by
  intro os
  induction os with
  | nil => intro b _ _ _ _ hc; simpa [addOrders] using hc
  | cons o os ih =>
    intro b hbI hfs hside hids hc
    have hfo : Fresh b o.id := by cases hfs with | cons _ _ _ hfo _ => exact hfo
    have hfs2 : FreshSeq (add_order b o).2 os := by
      cases hfs with | cons _ _ _ _ hfs2 => exact hfs2
    have hstep : PTlive s ai bi B (add_order b o).2 ∨ Fresh (add_order b o).2 ai := by
      rcases hc with hpt | hdead
      · exact pt_step b o hbI hfo s ai bi B (hside o (List.mem_cons_self _ _))
          (hids o (List.mem_cons_self _ _)).1 (hids o (List.mem_cons_self _ _)).2 hpt
      · exact Or.inr (fresh_step b o ai (hids o (List.mem_cons_self _ _)).1 hdead)
    have hfold : addOrders b (o :: os) = addOrders (add_order b o).2 os := by
      simp [addOrders]
    rw [hfold]
    exact ih (add_order b o).2 (inv_add b o hbI hfo) hfs2
      (fun u hu => hside u (List.mem_cons_of_mem _ hu))
      (fun u hu => hids u (List.mem_cons_of_mem _ hu)) hstep

/-- Claim C2: price-time priority.  For two resting orders A and B on the same
side at equal price with A strictly earlier, after any sequence of contra-side
orders (fresh ids, as the engines' monotone counter guarantees) is matched by
`add_order`, either B's active record is completely untouched or A has been
entirely consumed: no quantity of B trades before A is fully filled. -/
theorem claim_C2 (b : Book) (hbr : Reach b) (A B : Order)
    (hA : lookupA b.active A.id = some A) (hB : lookupA b.active B.id = some B)
    (hside : B.side = A.side) (hprice : A.price = B.price)
    (hts : A.timestamp < B.timestamp) (os : List Order)
    (hcontra : ∀ o ∈ os, o.side ≠ A.side)
    (hids : ∀ o ∈ os, o.id ≠ A.id ∧ o.id ≠ B.id)
    (hfs : FreshSeq b os) :
    lookupA (addOrders b os).active B.id = some B ∨
      lookupA (addOrders b os).active A.id = none := by
  have hbI := reach_inv b hbr
  have hABne : A.id ≠ B.id := by
    intro hc
    rw [hc, hB] at hA
    obtain rfl := Option.some.inj hA
    exact absurd hts (lt_irrefl _)
  obtain ⟨eA, heA, hidA⟩ := hbI.wit (A.id, A) (lookupA_mem hA)
  obtain ⟨eB, heB, hidB⟩ := hbI.wit (B.id, B) (lookupA_mem hB)
  have heB2 : eB ∈ sideHeap b A.side := by rwa [hside] at heB
  have hABe : eA ≠ eB := by
    intro hc
    rw [hc, hidB] at hidA
    exact hABne hidA.symm
  have hcA := hbI.cons eA (by
    rcases hsd : A.side
    · rw [hsd] at heA
      simp only [sideHeap] at heA
      exact Or.inr heA
    · rw [hsd] at heA
      simp only [sideHeap] at heA
      exact Or.inl heA) A (by rw [hidA]; exact hA)
  have hcB := hbI.cons eB (by
    rcases hsd : A.side
    · rw [hsd] at heB2
      simp only [sideHeap] at heB2
      exact Or.inr heB2
    · rw [hsd] at heB2
      simp only [sideHeap] at heB2
      exact Or.inl heB2) B (by rw [hidB]; exact hB)
  have hstart : PTlive A.side A.id B.id B b := by
    rcases hsd : A.side
    · -- bid side
      rw [hsd] at heA heB2
      simp only [sideHeap] at heA heB2
      have hnot : ¬ bidLE eB eA := by
        intro hcon
        unfold bidLE at hcon
        rcases hcon with hcon | ⟨hcon1, hcon2⟩
        · rw [hcA.2.1, hcB.2.1, ← hprice] at hcon
          exact lt_irrefl _ hcon
        · rw [hcA.2.2.1, hcB.2.2.1] at hcon2
          exact absurd hts (not_lt.2 hcon2)
      obtain ⟨l₁, l₂, hdec, hmemA⟩ :=
        pairwise_split hbI.bid_sorted heA heB2 hABe hnot
      refine ⟨by rw [hA]; rfl, hB, eB, l₁, l₂, ?_, hidB, ?_⟩
      · simp only [sideHeap]
        exact hdec
      · exact List.mem_map.2 ⟨eA, hmemA, hidA⟩
    · -- ask side
      rw [hsd] at heA heB2
      simp only [sideHeap] at heA heB2
      have hnot : ¬ askLE eB eA := by
        intro hcon
        unfold askLE at hcon
        rcases hcon with hcon | ⟨hcon1, hcon2⟩
        · rw [hcA.2.1, hcB.2.1, ← hprice] at hcon
          exact lt_irrefl _ hcon
        · rw [hcA.2.2.1, hcB.2.2.1] at hcon2
          exact absurd hts (not_lt.2 hcon2)
      obtain ⟨l₁, l₂, hdec, hmemA⟩ :=
        pairwise_split hbI.ask_sorted heA heB2 hABe hnot
      refine ⟨by rw [hA]; rfl, hB, eB, l₁, l₂, ?_, hidB, ?_⟩
      · simp only [sideHeap]
        exact hdec
      · exact List.mem_map.2 ⟨eA, hmemA, hidA⟩
  have hrun := pt_run A.side A.id B.id B os b hbI hfs hcontra hids (Or.inl hstart)
  rcases hrun with hpt | hdead
  · exact Or.inl hpt.2.1
  · exact Or.inr hdead.1

/-- Witness for claim C2: two same-price SELLs, the earlier one A (id 1); one
crossing BUY of quantity 7 fully fills A and only then partially fills B. -/
theorem claim_C2_witness :
    lookupA (addOrders (add_order (add_order emptyBook ⟨1, 0, 100, 5, Side.SELL⟩).2
        ⟨2, 1, 100, 5, Side.SELL⟩).2 [⟨3, 2, 100, 7, Side.BUY⟩]).active 2 =
      some ⟨2, 1, 100, 5, Side.SELL⟩ ∨
    lookupA (addOrders (add_order (add_order emptyBook ⟨1, 0, 100, 5, Side.SELL⟩).2
        ⟨2, 1, 100, 5, Side.SELL⟩).2 [⟨3, 2, 100, 7, Side.BUY⟩]).active 1 = none :=
  claim_C2 _
    (Reach.add _ ⟨2, 1, 100, 5, Side.SELL⟩
      (Reach.add emptyBook ⟨1, 0, 100, 5, Side.SELL⟩ Reach.empty (by decide))
      (by decide))
    ⟨1, 0, 100, 5, Side.SELL⟩ ⟨2, 1, 100, 5, Side.SELL⟩
    (by decide) (by decide) (by decide) (by decide) (by decide)
    [⟨3, 2, 100, 7, Side.BUY⟩] (by decide) (by decide)
    (FreshSeq.cons _ _ [] (by decide) (FreshSeq.nil _))

/- ===== Claim C5: get_mid does not clean stale heads ===== -/

/-- Counterexample to claim C5: `cexBook` holds a live bid at 90 and a stale ask
entry at 100 (its id was decayed).  The claim says `get_mid` cleans stale heads
first and returns the fallback (here 0) since the ask side is then empty; the
code returns the average of the raw tops, 95. -/
theorem claim_C5_counterexample :
    get_mid cexBook 0 = 95 ∧ get_mid_spec cexBook 0 = 0 ∧
      (clean_heaps cexBook).askHeap = [] ∧ cexBook.askHeap ≠ [] ∧
      get_mid cexBook 0 ≠ get_mid_spec cexBook 0 := by
  have h1 : get_mid cexBook 0 = 95 := by
    have hb : cexBook = ⟨[(1, ⟨1, 0, 90, 5, Side.BUY⟩)], [⟨2, 1, 100, 5, Side.SELL⟩],
        [⟨1, 0, 90, 5, Side.BUY⟩]⟩ := by decide
    rw [hb]
    show 1/2 * ((100 : ℚ) + 90) = 95
    norm_num
  have h2 : get_mid_spec cexBook 0 = 0 := by decide
  exact ⟨h1, h2, by decide, by decide, by rw [h1, h2]; norm_num⟩

/-- Claim C5 amended: `get_mid` reads the raw heap tops without cleaning and
falls back when a raw heap is empty; it agrees with the spec's clean-then-read
computation precisely when each non-empty heap's head is live. -/
theorem claim_C5 (b : Book) (f : ℚ)
    (hask : b.askHeap = [] ∨
      ∃ e t, b.askHeap = e :: t ∧ (lookupA b.active e.id).isSome)
    (hbid : b.bidHeap = [] ∨
      ∃ e t, b.bidHeap = e :: t ∧ (lookupA b.active e.id).isSome) :
    get_mid b f = get_mid (clean_heaps b) f := by
  have hclean : ∀ h : List Order,
      (h = [] ∨ ∃ e t, h = e :: t ∧ (lookupA b.active e.id).isSome) →
      cleanHeap b.active h = h := by
    rintro h (rfl | ⟨e, t, rfl, hl⟩)
    · rfl
    · rw [cleanHeap_cons, if_neg]
      intro hc
      rw [Option.isNone_iff_eq_none] at hc
      rw [hc] at hl
      simp at hl
  have hga : (clean_heaps b).askHeap = b.askHeap := hclean b.askHeap hask
  have hgb : (clean_heaps b).bidHeap = b.bidHeap := hclean b.bidHeap hbid
  unfold get_mid
  rw [hga, hgb]

/-- Witness for the amended claim C5 at a book with a live ask head and empty bid. -/
theorem claim_C5_witness : get_mid demoBook 3 = get_mid (clean_heaps demoBook) 3 :=
  claim_C5 demoBook 3
    (Or.inr ⟨⟨1, 0, 100, 5, Side.SELL⟩, [], by decide, by decide⟩)
    (Or.inl (by decide))

/- ===== Claim C6: STOP handling in the two variants ===== -/

/-- Claim C6 evaluation: a poll that receives STOP makes `checkCommands` return
−2.  The rich variant's break test (`status == -2`) fires, but the lite
variant's test (`!status`, i.e. `status == 0`) does not — the lite loop keeps
running after STOP and instead exits when a poll's final SCENARIO signal is 0. -/
theorem claim_C6 :
    checkCommands [Cmd.stop] false (-1) [] = some (-2, false, []) ∧
    richBreaks (-2) = true ∧
    liteBreaks (-2) = false ∧
    checkCommands [Cmd.scenario 0] false (-1) [] = some (0, false, []) ∧
    liteBreaks 0 = true := by
  decide

/- ===== Claim C7: user orders are not clamped or dropped ===== -/

/-- Counterexample to claim C7: an ORDER with quantity −3 is accepted by
`checkCommands` unchanged, its `(uint32_t)` cast wraps to 4294967293, and
`add_order` rests it in the book — the book is mutated, not dropped; an ORDER
with price 0 rests at price 0, below the claimed 0.01 floor. -/
theorem claim_C7_counterexample :
    checkCommands [Cmd.order 1 (-3) 50] false (-1) [] =
      some (-1, false, [⟨false, -3, 50⟩]) ∧
    (userToOrder 1 0 ⟨false, -3, 50⟩).quantity = 4294967293 ∧
    (add_order emptyBook (userToOrder 1 0 ⟨false, -3, 50⟩)).2 ≠ emptyBook ∧
    (add_order emptyBook (userToOrder 1 0 ⟨false, -3, 50⟩)).2.askHeap =
      [⟨1, 0, 50, 4294967293, Side.SELL⟩] ∧
    (userToOrder 2 0 ⟨true, 5, 0⟩).price = 0 ∧
    (add_order emptyBook (userToOrder 2 0 ⟨true, 5, 0⟩)).2.bidHeap =
      [⟨2, 0, 0, 5, Side.BUY⟩] ∧
    ¬ (1/100 : ℚ) ≤ 0 := by
  refine ⟨by decide, by decide, by decide, by decide, by decide, by decide, by norm_num⟩

/-- Claim C7 amended: the mains enter user orders into the book unchanged — the
price is passed through without any 0.01 clamp, and the `int` quantity is cast
to `uint32_t`, so a negative quantity wraps to the large positive value
`q + 2^32` instead of the order being dropped. -/
theorem claim_C7 (oid : ℕ) (t : ℚ) (u : UserOrder) :
    (userToOrder oid t u).price = u.price ∧
    (-(2 ^ 31) ≤ u.quantity → u.quantity < 0 →
      (userToOrder oid t u).quantity = (u.quantity + 2 ^ 32).toNat ∧
        0 < (userToOrder oid t u).quantity) := by
  refine ⟨rfl, fun h1 h2 => ?_⟩
  constructor
  · show (u.quantity % 2 ^ 32).toNat = (u.quantity + 2 ^ 32).toNat
    omega
  · show 0 < (u.quantity % 2 ^ 32).toNat
    omega

/-- Witness for the amended claim C7 at quantity −3. -/
theorem claim_C7_witness :
    (userToOrder 1 0 ⟨false, -3, 50⟩).quantity = ((-3 : ℤ) + 2 ^ 32).toNat ∧
      0 < (userToOrder 1 0 ⟨false, -3, 50⟩).quantity :=
  (claim_C7 1 0 ⟨false, -3, 50⟩).2 (by decide) (by decide)

/- ===== Claim C8: short interest only counts fundamental aggressor fills ===== -/

theorem matchLoopX_nil (breakQ : ℚ → ℚ → Prop) [DecidableRel breakQ]
    (le : Order → Order → Prop) [DecidableRel le]
    (active : List (ℕ × Order)) (o : Order) :
    matchLoopX breakQ le active [] o = ([], active, [], o) := rfl

theorem matchLoopX_cons (breakQ : ℚ → ℚ → Prop) [DecidableRel breakQ]
    (le : Order → Order → Prop) [DecidableRel le]
    (active : List (ℕ × Order)) (best : Order) (rest : List Order) (o : Order) :
    matchLoopX breakQ le active (best :: rest) o =
      if o.quantity = 0 then ([], active, best :: rest, o)
      else if (lookupA active best.id).isNone then matchLoopX breakQ le active rest o
      else if breakQ best.price o.price then ([], active, best :: rest, o)
      else if min best.quantity o.quantity < best.quantity then
        ([(best.id, ⟨best.price, min best.quantity o.quantity, o.timestamp⟩)],
         insertA active best.id { best with quantity := best.quantity - min best.quantity o.quantity },
         hpush le { best with quantity := best.quantity - min best.quantity o.quantity } rest,
         { o with quantity := o.quantity - min best.quantity o.quantity })
      else
        ⟨(best.id, ⟨best.price, min best.quantity o.quantity, o.timestamp⟩) ::
           (matchLoopX breakQ le (eraseA active best.id) rest
             { o with quantity := o.quantity - min best.quantity o.quantity }).1,
         (matchLoopX breakQ le (eraseA active best.id) rest
           { o with quantity := o.quantity - min best.quantity o.quantity }).2⟩ := rfl

/-- The instrumented matcher erases to the engine's: dropping the resting-id
tags gives exactly the trades of `matchLoop`, and the book components agree. -/
theorem matchLoopX_erases (breakQ : ℚ → ℚ → Prop) [DecidableRel breakQ]
    (le : Order → Order → Prop) [DecidableRel le] :
    ∀ (h : List Order) (active : List (ℕ × Order)) (o : Order),
      (matchLoopX breakQ le active h o).1.map Prod.snd =
        (matchLoop breakQ le active h o).1 ∧
      (matchLoopX breakQ le active h o).2 = (matchLoop breakQ le active h o).2 := by
  intro h
  induction h with
  | nil => intro active o; exact ⟨rfl, rfl⟩
  | cons best rest ih =>
    intro active o
    rw [matchLoopX_cons, matchLoop_cons]
    split_ifs with h0 h1 h2 h3
    · exact ⟨rfl, rfl⟩
    · exact ih active o
    · exact ⟨rfl, rfl⟩
    · exact ⟨rfl, rfl⟩
    · constructor
      · rw [List.map_cons, (ih _ _).1]
      · exact (ih _ _).2

theorem add_orderX_erases (b : Book) (o : Order) :
    (add_orderX b o).1.map Prod.snd = (add_order b o).1 ∧
      (add_orderX b o).2 = (add_order b o).2 := by
  cases hso : o.side
  · rcases hmx : matchLoopX buyBreak askLE b.active b.askHeap o with ⟨trX, aX, hX, oX⟩
    rcases hm : matchLoop buyBreak askLE b.active b.askHeap o with ⟨tr, a, h2, o2⟩
    have he := matchLoopX_erases buyBreak askLE b.askHeap b.active o
    rw [hmx, hm] at he
    obtain ⟨he1, he2⟩ := he
    simp only at he2
    obtain ⟨rfl, rfl, rfl⟩ := Prod.mk.injEq .. ▸ he2
    simp only [add_orderX, add_order, hso, hmx, hm]
    split_ifs with hq
    · exact ⟨he1, rfl⟩
    · exact ⟨he1, rfl⟩
  · rcases hmx : matchLoopX sellBreak bidLE b.active b.bidHeap o with ⟨trX, aX, hX, oX⟩
    rcases hm : matchLoop sellBreak bidLE b.active b.bidHeap o with ⟨tr, a, h2, o2⟩
    have he := matchLoopX_erases sellBreak bidLE b.bidHeap b.active o
    rw [hmx, hm] at he
    obtain ⟨he1, he2⟩ := he
    simp only at he2
    obtain ⟨rfl, rfl, rfl⟩ := Prod.mk.injEq .. ▸ he2
    simp only [add_orderX, add_order, hso, hmx, hm]
    split_ifs with hq
    · exact ⟨he1, rfl⟩
    · exact ⟨he1, rfl⟩

/-- Counterexample to claim C8: a fundamental SELL rests (no fills, so
short_interest stays 0); a maker BUY then consumes it — a fill in which the
fundamental is the SELL party — but the code's accumulator, updated only for
fundamental-submitted orders, still reads 0 while the claim's sum reads +5. -/
theorem claim_C8_counterexample :
    (runSubs emptyBook 0 cexSubs).2 = 0 ∧ specSI emptyBook [] cexSubs = 5 ∧
      (runSubs emptyBook 0 cexSubs).2 ≠ specSI emptyBook [] cexSubs := by
  decide

/-- Claim C8 amended: at every point of the submission trace, short_interest
equals the signed sum over fills of fundamental-submitted (aggressor) orders
only — `+qty` when the fundamental aggressor sold, `-qty` when it bought;
fills that merely consume a fundamental's resting order are not counted. -/
theorem claim_C8 : ∀ (subs : List (AgentClass × Order)) (b : Book) (si : ℤ),
    (runSubs b si subs).2 = si + specSIAggr b subs := by
  intro subs
  induction subs with
  | nil => intro b si; simp [runSubs, specSIAggr]
  | cons co rest ih =>
    intro b si
    obtain ⟨c, o⟩ := co
    by_cases hc : c = AgentClass.fundamental
    · subst hc
      simp only [runSubs, specSIAggr, eq_self_iff_true, if_true]
      rw [ih]
      ring
    · simp only [runSubs, specSIAggr, if_neg hc]
      rw [ih]
      ring

/- ===== Claim C9: momentum EWMAs update on every act call ===== -/

/-- Claim C9: in both engine variants, every call to `MomentumTrader::act`
updates the two EWMAs by exactly `ema_s ← 0.05·mid + 0.95·ema_s` and
`ema_l ← 0.01·mid + 0.99·ema_l`, including calls that return no order because
`time < next_act_time` (in which case the id counter is also untouched). -/
theorem claim_C9 :
    (∀ (a : VV.MomentumTrader) (mid vol time : ℚ) (oid : ℕ) (draw : ℚ → ℚ),
      ((a.act mid vol time oid draw).1.ema_s = 1/20 * mid + 19/20 * a.ema_s ∧
       (a.act mid vol time oid draw).1.ema_l = 1/100 * mid + 99/100 * a.ema_l) ∧
      (time < a.next_act_time →
        (a.act mid vol time oid draw).2.1 = none ∧
        (a.act mid vol time oid draw).2.2 = oid)) ∧
    (∀ (a : MV.MomentumTrader) (ref time : ℚ) (oid : ℕ) (draw : ℚ → ℚ),
      ((a.act ref time oid draw).1.ema_s = 1/20 * ref + 19/20 * a.ema_s ∧
       (a.act ref time oid draw).1.ema_l = 1/100 * ref + 99/100 * a.ema_l) ∧
      (time < a.next_act_time →
        (a.act ref time oid draw).2.1 = none ∧
        (a.act ref time oid draw).2.2 = oid)) := by
  constructor
  · intro a mid vol time oid draw
    constructor
    · constructor <;> (simp only [VV.MomentumTrader.act]; split_ifs <;> rfl)
    · intro ht
      simp only [VV.MomentumTrader.act]
      split_ifs
      exact ⟨rfl, rfl⟩
  · intro a ref time oid draw
    constructor
    · constructor <;> (simp only [MV.MomentumTrader.act]; split_ifs <;> rfl)
    · intro ht
      simp only [MV.MomentumTrader.act]
      split_ifs
      exact ⟨rfl, rfl⟩

/-- Witness for claim C9 at a concrete idle call (time 0 < next_act_time 20). -/
theorem claim_C9_witness :
    ((VV.MomentumTrader.start 100).act 10 0 0 1 (fun _ => 1)).1.ema_s =
        1/20 * 10 + 19/20 * (VV.MomentumTrader.start 100).ema_s ∧
      ((VV.MomentumTrader.start 100).act 10 0 0 1 (fun _ => 1)).2.1 = none :=
  ⟨((claim_C9.1 (VV.MomentumTrader.start 100) 10 0 0 1 (fun _ => 1)).1).1,
   ((claim_C9.1 (VV.MomentumTrader.start 100) 10 0 0 1 (fun _ => 1)).2 (by norm_num [VV.MomentumTrader.start])).1⟩

/- ===== Claim C10: pump drawdown guards ===== -/

/-- Claim C10: both Pump-scenario drawdown computations are guarded: with a
non-positive shared peak (as right after a scenario switch away from Pump
resets it to 0), `NoiseTrader::act`'s drawdown — computed after its
`update_peak(mid)` call — and the tick loop's hype drawdown are 0 rather than a
division by the peak; the hype metric then evaluates to 90 under Pump, and
`set_scenario` to any non-Pump scenario resets the shared peak to 0. -/
theorem claim_C10 (peak mid price q : ℚ) (c s : MarketScenario)
    (hpeak : peak ≤ 0) (hs : s ≠ MarketScenario.PUMP_DUMP) :
    noiseDrawdown (update_peak peak mid) mid = 0 ∧
    hypeDrawdown peak price = 0 ∧
    hype_val MarketScenario.PUMP_DUMP peak price = 90 ∧
    (set_scenario c q s).2 = 0 := by
  have h2 : hypeDrawdown peak price = 0 := by
    unfold hypeDrawdown
    rw [if_neg (not_lt.2 hpeak)]
  refine ⟨?_, h2, ?_, ?_⟩
  · unfold noiseDrawdown update_peak
    by_cases hm : mid > peak
    · rw [if_pos hm]
      by_cases hm0 : mid > 0
      · rw [if_pos hm0, sub_self, zero_div]
      · rw [if_neg hm0]
    · rw [if_neg hm, if_neg (not_lt.2 hpeak)]
  · unfold hype_val
    rw [if_pos rfl, h2]
    norm_num
  · unfold set_scenario
    simp [hs]

/-- Witness for claim C10 at peak 0 (the post-switch state). -/
theorem claim_C10_witness :
    noiseDrawdown (update_peak 0 7) 7 = 0 ∧ hypeDrawdown 0 3 = 0 ∧
      hype_val MarketScenario.PUMP_DUMP 0 3 = 90 ∧
      (set_scenario MarketScenario.PUMP_DUMP 5 MarketScenario.NORMAL).2 = 0 :=
  claim_C10 0 7 3 5 MarketScenario.PUMP_DUMP MarketScenario.NORMAL (le_refl 0) (by decide)

end AMS
